import Mathlib

/-!
# The tokenizers of the interactive transformer

A shallow embedding of `tokenizer.go` (the greedy longest-match `Tokenizer`)
and `tokenizer_json.go` (the byte-pair `Tokenizer2`), followed by the
properties established about them.

Conventions of the embedding.

* A Go `string` handled by `Tokenizer` is a sequence of bytes (`GoString`,
  a list of naturals below 256): the greedy encoder slices by byte offsets.
* A Go `string` handled by `Tokenizer2` is a sequence of code points (`Str`):
  the keys of a JSON-decoded map are valid UTF-8, and on valid UTF-8
  `strings.Split(s, "")` yields exactly the one-code-point substrings.
* A Go `map` is an association list read through `GoMap.get`; an assignment
  `m[k] = v` puts the new entry in front, where `get` finds it first.
* A Go function returning `(value, error)` returns a pair whose second
  component is `none` for a `nil` error.
* A loop that the Go code does not bound is run with a fuel counter and
  yields `none` when the fuel is used up; a result `some r` is a result the Go
  code returns.
* An index outside a slice is a panic (`GoRun.panicked`).
* A loader is a function of what its file holds (`FileInput`, or the bytes
  of the file).  A `range` loop over a map visits the entries of the
  association list in list order; Go leaves the order open, and the list may
  be given in any order.
-/

namespace Tok

/-! ## Common data model -/

/-- A Go string as the sequence of its bytes. -/
abbrev GoString := List Nat

/-- A Go string that is valid UTF-8, as the sequence of its code points. -/
abbrev Str := List Char

/-- A Go map: the entry found first from the front is the current one. -/
abbrev GoMap (κ : Type) (ν : Type) := List (κ × ν)

/-- The lookup `v, ok := m[k]`. -/
def GoMap.get {κ ν : Type} [BEq κ] (m : GoMap κ ν) (k : κ) : Option ν :=
  List.lookup k m

/-- The assignment `m[k] = v`. -/
def GoMap.set {κ ν : Type} (m : GoMap κ ν) (k : κ) (v : ν) : GoMap κ ν :=
  (k, v) :: m

/-- The errors built by `errors.New` and `fmt.Errorf` in the two files. -/
inductive GoError where
  | notValidToken
  | incorrectHeader
  | tokenizerFailure
  | readError
  | unknownToken (subToken : Str)
  | unknownTokenID (token : Int)
  | unmarshalError
  deriving DecidableEq, Repr

/-- A run-time panic of the Go program. -/
inductive GoPanic where
  | indexOutOfRange
  deriving DecidableEq, Repr

/-- The outcome of a call that may panic. -/
inductive GoRun (α : Type) where
  | returned (value : α)
  | panicked (p : GoPanic)
  deriving DecidableEq, Repr

/-- The conversion `int32(x)`: two's-complement wrap-around to 32 bits. -/
def int32 (x : Int) : Int := (x + 2147483648) % 4294967296 - 2147483648

/-- The conversion `uint32(x)` of a length. -/
def uint32 (x : Nat) : Nat := x % 4294967296

/-! ## tokenizer.go -/

/-- The constant `GPT2_EOT`. -/
def GPT2_EOT : Int := 50256

/-- The struct `Tokenizer`. -/
structure Tokenizer where
  vocabSize : Nat
  tokenTable : List GoString
  tokenMap : GoMap GoString Int
  init : Bool

/-- The loop `for i, token := range vocab` of `newTokenizer`, started at
index `i` with the map built so far. -/
def fillTokenMap : List GoString → Nat → GoMap GoString Int → GoMap GoString Int
  | [], _, m => m
  | token :: rest, i, m => fillTokenMap rest (i + 1) (m.set token (int32 i))

/-- The function `newTokenizer`. -/
def newTokenizer (vocab : List GoString) : Tokenizer :=
  { vocabSize := uint32 vocab.length
    tokenTable := vocab
    tokenMap := fillTokenMap vocab 0 []
    init := true }

/-- The loop of `Tokenizer.Decode` over the remaining tokens, with the text
`s` built so far.  Indexing `tokenTable` outside its bounds panics. -/
def decodeLoop (t : Tokenizer) : List Int → GoString →
    GoRun (GoString × Option GoError)
  | [], s => .returned (s, none)
  | token :: rest, s =>
    if token ≥ int32 t.tokenTable.length then
      .returned ([], some GoError.notValidToken)
    else if token ≠ GPT2_EOT then
      if 0 ≤ token then
        match t.tokenTable.get? token.toNat with
        | some piece => decodeLoop t rest (s ++ piece)
        | none => .panicked GoPanic.indexOutOfRange
      else .panicked GoPanic.indexOutOfRange
    else decodeLoop t rest s

/-- The method `Tokenizer.Decode`. -/
def Tokenizer.Decode (t : Tokenizer) (tokens : List Int) :
    GoRun (GoString × Option GoError) :=
  decodeLoop t tokens []

/-- The inner loop `for i := len(text); i > 0; i--` of `Tokenizer.Encode`,
entered with counter `i`: the values of `longestMatch` and
`longestMatchToken` when it is left. -/
def longestMatchLoop (t : Tokenizer) (text : GoString) : Nat → GoString × Int
  | 0 => ([], GPT2_EOT)
  | i + 1 =>
    match t.tokenMap.get (text.take (i + 1)) with
    | some token => (text.take (i + 1), token)
    | none => longestMatchLoop t text i

/-- The outer loop `for len(text) > 0` of `Tokenizer.Encode`, with the
tokens appended so far. -/
def encodeLoop (t : Tokenizer) : Nat → GoString → List Int → Option (List Int)
  | _, [], tokens => some tokens
  | 0, _ :: _, _ => none
  | fuel + 1, b :: bs, tokens =>
    let found := longestMatchLoop t (b :: bs) (b :: bs).length
    if found.1 = [] then
      encodeLoop t fuel bs (tokens ++ [GPT2_EOT])
    else
      encodeLoop t fuel ((b :: bs).drop found.1.length) (tokens ++ [found.2])

/-- The method `Tokenizer.Encode`; one unit of fuel per byte of `text`. -/
def Tokenizer.Encode (t : Tokenizer) (text : GoString) :
    Option (List Int × Option GoError) :=
  (encodeLoop t text.length text []).map (fun tokens => (tokens, none))

/-- The ids `Tokenizer.Encode` appends for `text`. -/
def encodeIds (t : Tokenizer) (text : GoString) : List Int :=
  (encodeLoop t text.length text []).getD []

/-! ## tokenizer_json.go -/

/-- The compiled pattern held in `bpeRegex`.  The pattern text is fixed by
`NewTokenizer2`; the Unicode tables behind `\p{L}` and `\p{N}` belong to the
regular-expression library and are taken as parameters. -/
structure Regexp where
  letter : Char → Bool
  number : Char → Bool

/-- The struct `Tokenizer2`. -/
structure Tokenizer2 where
  encoder : GoMap Str Int
  decoder : GoMap Int Str
  bpeRanks : GoMap Str Int
  bpeRegex : Regexp
  specialTokens : GoMap Str Int

/-- The largest `int`, written `int(^uint(0) >> 1)` in `bpe`, for the
64-bit `int`. -/
def maxInt : Int := 9223372036854775807

/-- The class `\s` of the pattern: tab, line feed, form feed, carriage
return and space. -/
def reSpace (c : Char) : Bool :=
  c = '\t' || c = '\n' || c = '\x0c' || c = '\r' || c = ' '

/-- The class `[^\s\p{L}\p{N}]` of the pattern. -/
def reOther (re : Regexp) (c : Char) : Bool :=
  !reSpace c && !re.letter c && !re.number c

/-- The literal alternatives of the pattern, in their order. -/
def reLiterals : List Str :=
  [['\'', 's'], ['\'', 't'], ['\'', 'r', 'e'], ['\'', 'v', 'e'], ['\'', 'm'],
   ['\'', 'l', 'l'], ['\'', 'd']]

/-- The length of the longest run of characters of a class at the head of
`s`: what a greedy `C+` consumes when nothing follows it. -/
def runLen (p : Char → Bool) (s : Str) : Nat := (s.takeWhile p).length

/-- The alternative `C+` at the head of `s`. -/
def matchRun (p : Char → Bool) (s : Str) : Option Nat :=
  if 0 < runLen p s then some (runLen p s) else none

/-- The alternative ` ?C+` at the head of `s`: the space is taken when the
rest then matches, and left out otherwise. -/
def matchOptSpaceRun (p : Char → Bool) (s : Str) : Option Nat :=
  match s with
  | c :: r =>
    if c = ' ' && decide (0 < runLen p r) then some (1 + runLen p r)
    else matchRun p (c :: r)
  | [] => none

/-- The length of the match of the whole pattern that starts at the head of
`s`, with the leftmost-first choice among the alternatives. -/
def matchAt (re : Regexp) (s : Str) : Option Nat :=
  match reLiterals.find? (fun lit => lit.isPrefixOf s) with
  | some lit => some lit.length
  | none =>
    match matchOptSpaceRun re.letter s with
    | some n => some n
    | none =>
      match matchOptSpaceRun re.number s with
      | some n => some n
      | none =>
        match matchOptSpaceRun (reOther re) s with
        | some n => some n
        | none => matchRun reSpace s

/-- The successive matches found from the head of `s`; a position where
nothing matches is passed over. -/
def findAllFrom (re : Regexp) : Nat → Str → List Str
  | 0, _ => []
  | _, [] => []
  | fuel + 1, c :: r =>
    match matchAt re (c :: r) with
    | some n => (c :: r).take n :: findAllFrom re fuel ((c :: r).drop n)
    | none => findAllFrom re fuel r

/-- The call `t.bpeRegex.FindAllString(text, -1)`. -/
def FindAllString (re : Regexp) (text : Str) : List Str :=
  findAllFrom re text.length text

/-- The call `strings.Split(s, sep)` for a one-character separator. -/
def Split (sep : Char) : Str → List Str
  | [] => [[]]
  | c :: r =>
    if c = sep then [] :: Split sep r
    else
      match Split sep r with
      | piece :: pieces => (c :: piece) :: pieces
      | [] => [[c]]

/-- The call `strings.Split(token, "")`: one string per code point. -/
def explode (token : Str) : List Str := token.map (fun c => [c])

/-- The call `strings.ReplaceAll(s, old, new)` for one-character `old` and
`new`. -/
def ReplaceAll (s : Str) (old new : Char) : Str :=
  s.map (fun c => if c = old then new else c)

/-- The predicate `unicode.IsSpace`. -/
def isSpace (c : Char) : Bool :=
  let n := c.toNat
  (9 ≤ n && n ≤ 13) || n = 32 || n = 133 || n = 160 || n = 5760 ||
  (8192 ≤ n && n ≤ 8202) || n = 8232 || n = 8233 || n = 8239 || n = 8287 ||
  n = 12288

/-- The call `strings.TrimSpace(s)`. -/
def TrimSpace (s : Str) : Str :=
  ((s.dropWhile isSpace).reverse.dropWhile isSpace).reverse

/-- The function `getPairs`. -/
def getPairs : List Str → List Str
  | a :: b :: rest => (a ++ [','] ++ b) :: getPairs (b :: rest)
  | _ => []

/-- One round of the loop `for _, pair := range pairs` of `bpe`, on the
current `(minPair, minRank)`. -/
def selectStep (bpeRanks : GoMap Str Int) (st : Str × Int) (pair : Str) : Str × Int :=
  match bpeRanks.get pair with
  | some rank => if rank < st.2 then (pair, rank) else st
  | none => st

/-- The values of `(minPair, minRank)` after the loop over `pairs`. -/
def selectMin (bpeRanks : GoMap Str Int) (pairs : List Str) : Str × Int :=
  pairs.foldl (selectStep bpeRanks) ([], maxInt)

/-- The loop `for i < len(chars)` of `bpe`, on the symbols from position `i`
on: `newChars` for the two strings `parts[0]` and `parts[1]`. -/
def mergePass (p0 p1 : Str) : List Str → List Str
  | a :: b :: rest =>
    if a = p0 ∧ b = p1 then (p0 ++ p1) :: mergePass p0 p1 rest
    else a :: mergePass p0 p1 (b :: rest)
  | [a] => [a]
  | [] => []

/-- The loop `for { ... }` of `bpe`, entered with `chars` and `pairs`. -/
def bpeLoop (bpeRanks : GoMap Str Int) : Nat → List Str → List Str → Option (List Str)
  | 0, _, _ => none
  | fuel + 1, chars, pairs =>
    if pairs.length = 0 then some chars
    else
      let minPair := (selectMin bpeRanks pairs).1
      if minPair = [] then some chars
      else
        let parts := Split ',' minPair
        let newChars := mergePass (parts.getD 0 []) (parts.getD 1 []) chars
        if newChars.length = 1 then some newChars
        else bpeLoop bpeRanks fuel newChars (getPairs newChars)

/-- The method `Tokenizer2.bpe`, its loop run with `fuel`. -/
def Tokenizer2.bpe (t : Tokenizer2) (fuel : Nat) (token : Str) : Option (List Str) :=
  match t.specialTokens.get token with
  | some specialID => some [(t.decoder.get specialID).getD []]
  | none =>
    let chars := explode token
    if chars.length = 1 then some chars
    else bpeLoop t.bpeRanks fuel chars (getPairs chars)

/-- The loop `for _, subToken := range subTokens` of `Tokenizer2.Encode`:
the ids appended to `encoded`, or the unknown symbol. -/
def encodeSubTokens (encoder : GoMap Str Int) : List Str → List Int → Except Str (List Int)
  | [], encoded => .ok encoded
  | subToken :: rest, encoded =>
    match encoder.get subToken with
    | some id => encodeSubTokens encoder rest (encoded ++ [id])
    | none => .error subToken

/-- The loop `for _, token := range tokens` of `Tokenizer2.Encode`. -/
def encodeChunks (t : Tokenizer2) (fuel : Nat) : List Str → List Int →
    Option (List Int × Option GoError)
  | [], encoded => some (encoded, none)
  | token :: rest, encoded =>
    match t.bpe fuel token with
    | none => none
    | some subTokens =>
      match encodeSubTokens t.encoder subTokens encoded with
      | .ok encoded' => encodeChunks t fuel rest encoded'
      | .error subToken => some ([], some (GoError.unknownToken subToken))

/-- The method `Tokenizer2.Encode`, every call of `bpe` run with `fuel`. -/
def Tokenizer2.Encode (t : Tokenizer2) (fuel : Nat) (text : Str) :
    Option (List Int × Option GoError) :=
  encodeChunks t fuel (FindAllString t.bpeRegex text) []

/-- The loop `for _, token := range tokens` of `Tokenizer2.Decode`: the
words appended to `decoded`, or the unknown id. -/
def decodeWords (decoder : GoMap Int Str) : List Int → List Str → Except Int (List Str)
  | [], decoded => .ok decoded
  | token :: rest, decoded =>
    match decoder.get token with
    | some word => decodeWords decoder rest (decoded ++ [word])
    | none => .error token

/-- The method `Tokenizer2.Decode`. -/
def Tokenizer2.Decode (t : Tokenizer2) (tokens : List Int) : Str × Option GoError :=
  match decodeWords t.decoder tokens [] with
  | .error token => ([], some (GoError.unknownTokenID token))
  | .ok decoded => (TrimSpace (ReplaceAll decoded.flatten 'Ġ' ' '), none)

/-- A pattern whose letter and number classes are the ASCII ones; they are
the classes `\p{L}` and `\p{N}` restricted to ASCII characters. -/
def asciiRegexp : Regexp :=
  { letter := fun c => ('a' ≤ c && c ≤ 'z') || ('A' ≤ c && c ≤ 'Z')
    number := fun c => '0' ≤ c && c ≤ '9' }

/-- A tokenizer whose only merge rule joins a comma with a full stop. -/
def commaTokenizer : Tokenizer2 :=
  { encoder := [([','], 0), (['.'], 1)]
    decoder := [(0, [',']), (1, ['.'])]
    bpeRanks := [([',', ',', '.'], 0)]
    bpeRegex := asciiRegexp
    specialTokens := [] }

/-- A tokenizer with the two merge rules `a,b` and `b,c` of equal rank. -/
def tieTokenizer : Tokenizer2 :=
  { encoder := []
    decoder := []
    bpeRanks := [(['a', ',', 'b'], 0), (['b', ',', 'c'], 0)]
    bpeRegex := asciiRegexp
    specialTokens := [] }

/-- A tokenizer whose special token `<s>` has an id that `encoder`, and so
`decoder`, does not hold. -/
def specialTokenizer : Tokenizer2 :=
  { encoder := [(['a'], 0)]
    decoder := [(0, ['a'])]
    bpeRanks := []
    bpeRegex := asciiRegexp
    specialTokens := [(['<', 's', '>'], 7)] }

/-- A tokenizer without merge rules whose `decoder` inverts its `encoder`. -/
def spaceTokenizer : Tokenizer2 :=
  { encoder := [([' '], 0), (['Ġ'], 1), (['a'], 2)]
    decoder := [(0, [' ']), (1, ['Ġ']), (2, ['a'])]
    bpeRanks := []
    bpeRegex := asciiRegexp
    specialTokens := [] }

/-! ## The loaders -/

/-- What a loader finds at its path: no readable file, a file that
`json.Unmarshal` rejects, or the decoded value. -/
inductive FileInput (α : Type) where
  | unreadable
  | malformed
  | parsed (value : α)

/-- The zero value `Tokenizer{}`. -/
def Tokenizer.zero : Tokenizer :=
  { vocabSize := 0, tokenTable := [], tokenMap := [], init := false }

/-- The two assignments `tok.tokenTable[i] = token` and
`tok.tokenMap[token] = int32(i)` made by the loaders. -/
def assignToken (tok : Tokenizer) (i : Nat) (token : GoString) : Tokenizer :=
  { tok with
    tokenTable := tok.tokenTable.set i token
    tokenMap := tok.tokenMap.set token (int32 i) }

/-- The call `binary.LittleEndian.Uint32` on four bytes. -/
def leUint32 (b : List Nat) : Nat :=
  b.getD 0 0 + 256 * b.getD 1 0 + 65536 * b.getD 2 0 + 16777216 * b.getD 3 0

/-- The word `header[i]` of the 1024 header bytes. -/
def headerWord (header : List Nat) (i : Nat) : Nat :=
  leUint32 ((header.drop (4 * i)).take 4)

/-- The loop `for i := range tok.tokenTable` of `NewTokenizer` with `n`
records still to read, at index `i`, on the unread bytes of the file. -/
def loadRecords : Nat → Nat → List Nat → Tokenizer → Tokenizer × Option GoError
  | 0, _, _, tok => (tok, none)
  | _ + 1, _, [], tok => (tok, some GoError.readError)
  | n + 1, i, length :: rest, tok =>
    if length ≤ 0 then (tok, some GoError.tokenizerFailure)
    else if rest.length < length then (tok, some GoError.readError)
    else loadRecords n (i + 1) (rest.drop length) (assignToken tok i (rest.take length))

/-- The function `NewTokenizer`, on the bytes of the file (`none` when the
file cannot be opened). -/
def NewTokenizer (file : Option (List Nat)) : Tokenizer × Option GoError :=
  match file with
  | none => (Tokenizer.zero, some GoError.readError)
  | some content =>
    if content.length < 1024 then (Tokenizer.zero, some GoError.readError)
    else
      let header := content.take 1024
      if headerWord header 0 ≠ 20240328 ∨ headerWord header 1 ≠ 1 then
        (Tokenizer.zero, some GoError.incorrectHeader)
      else
        loadRecords (headerWord header 2) 0 (content.drop 1024)
          { vocabSize := headerWord header 2
            tokenTable := List.replicate (headerWord header 2) []
            tokenMap := []
            init := true }

/-- The field `Model` of the struct `TokenizerJSON`; `ModelType` is its
field `Type`. -/
structure TokenizerJSONModel where
  ModelType : GoString
  Vocab : GoMap GoString Int
  MergesData : List GoString
  SpecialTokens : GoMap GoString GoString

/-- The struct `TokenizerJSON`. -/
structure TokenizerJSON where
  Version : GoString
  Model : TokenizerJSONModel

/-- The rewriting of a key in `NewTokenizerJson`: the two leading bytes
0xC4, 0xA0 become one space. -/
def remapToken (token : GoString) : GoString :=
  if token.length ≥ 2 ∧ token.getD 0 0 = 196 ∧ token.getD 1 0 = 160 then
    [32] ++ token.drop 2
  else token

/-- The loop `for i, pair := range tokenIDPairs` of `NewTokenizerJson`, at
index `i`. -/
def fillPairs : List (GoString × Int) → Nat → Tokenizer → Tokenizer
  | [], _, tok => tok
  | pair :: rest, i, tok => fillPairs rest (i + 1) (assignToken tok i pair.1)

/-- The function `NewTokenizerJson`.  The call `sort.Slice` is the
parameter `sortSlice`: Go leaves open which of the orderings by `ID` it
produces when two ids are equal. -/
def NewTokenizerJson (sortSlice : List (GoString × Int) → List (GoString × Int))
    (file : FileInput TokenizerJSON) : Tokenizer × Option GoError :=
  match file with
  | .unreadable => (Tokenizer.zero, some GoError.readError)
  | .malformed => (Tokenizer.zero, some GoError.unmarshalError)
  | .parsed tokenizerData =>
    let tokenIDPairs := tokenizerData.Model.Vocab.map (fun e => (remapToken e.1, e.2))
    (fillPairs (sortSlice tokenIDPairs) 0
      { vocabSize := uint32 tokenizerData.Model.Vocab.length
        tokenTable := List.replicate tokenizerData.Model.Vocab.length []
        tokenMap := []
        init := true }, none)

/-- The anonymous struct `NewTokenizer2` decodes its file into. -/
structure Tokenizer2JSON where
  Encoder : GoMap Str Int
  BpeRanks : GoMap Str Int
  SpecialTokens : GoMap Str Int

/-- The loop `for token, id := range tokenizer.Encoder` of `NewTokenizer2`,
with the `decoder` built so far. -/
def buildDecoder : List (Str × Int) → GoMap Int Str → GoMap Int Str
  | [], decoder => decoder
  | (token, id) :: rest, decoder => buildDecoder rest (decoder.set id token)

/-- The function `NewTokenizer2`; `re` stands for the compiled pattern. -/
def NewTokenizer2 (re : Regexp) (file : FileInput Tokenizer2JSON) :
    Option Tokenizer2 × Option GoError :=
  match file with
  | .unreadable => (none, some GoError.readError)
  | .malformed => (none, some GoError.unmarshalError)
  | .parsed tokenizer =>
    (some
      { encoder := tokenizer.Encoder
        decoder := buildDecoder tokenizer.Encoder []
        bpeRanks := tokenizer.BpeRanks
        bpeRegex := re
        specialTokens := tokenizer.SpecialTokens }, none)

/-- The merge the specification describes: scanning from the left, every
occurrence of `left` directly followed by `right` becomes `left ++ right`,
two positions being passed on a match and one otherwise. -/
def mergeReference (left right : Str) : List Str → List Str
  | a :: b :: rest =>
    if a = left ∧ b = right then (left ++ right) :: mergeReference left right rest
    else a :: mergeReference left right (b :: rest)
  | rest => rest

/-- The symbols `bpe` hands from one round of its loop to the next: the
merge pass for the two strings cut out of the selected key at its commas. -/
def nextChars (bpeRanks : GoMap Str Int) (chars : List Str) : List Str :=
  let parts := Split ',' (selectMin bpeRanks (getPairs chars)).1
  mergePass (parts.getD 0 []) (parts.getD 1 []) chars

/-- A tokenizer whose only merge rule has the largest `int` as its rank. -/
def maxRankTokenizer : Tokenizer2 :=
  { encoder := []
    decoder := []
    bpeRanks := [(['a', ',', 'b'], 9223372036854775807)]
    bpeRegex := asciiRegexp
    specialTokens := [] }

/-- An ordering by `ID` that `sort.Slice` may produce: insertion sort. -/
def sortByID (l : List (GoString × Int)) : List (GoString × Int) :=
  l.insertionSort (fun a b => a.2 ≤ b.2)

/-- The tokenizer after the two assignments of `assignToken` were made for
each of `tokens` in turn, from index `i` on. -/
def assignAll : List GoString → Nat → Tokenizer → Tokenizer
  | [], _, tok => tok
  | token :: rest, i, tok => assignAll rest (i + 1) (assignToken tok i token)

/-- The bytes of a list of records: each payload behind its length byte. -/
def recordBytes (payloads : List GoString) : List Nat :=
  (payloads.map (fun p => p.length :: p)).flatten

/-- A 1024-byte header with the magic number, version 1 and size 2. -/
def sampleHeader : List Nat :=
  [200, 215, 52, 1, 1, 0, 0, 0, 2, 0, 0, 0] ++ List.replicate 1012 0

/-! ## Properties of the greedy tokenizer -/

theorem longestMatchLoop_none (t : Tokenizer) (text : GoString) :
    ∀ i, (∀ j, 1 ≤ j → j ≤ i → t.tokenMap.get (text.take j) = none) →
      longestMatchLoop t text i = ([], GPT2_EOT)
  | 0, _ => rfl
  | i + 1, h => by
    rw [longestMatchLoop, h (i + 1) (by omega) le_rfl]
    exact longestMatchLoop_none t text i (fun j h1 h2 => h j h1 (by omega))

theorem longestMatchLoop_some (t : Tokenizer) (text : GoString) (k : Nat) (id : Int)
    (hk : 1 ≤ k) (hget : t.tokenMap.get (text.take k) = some id) :
    ∀ i, k ≤ i → (∀ j, k < j → j ≤ i → t.tokenMap.get (text.take j) = none) →
      longestMatchLoop t text i = (text.take k, id)
  | 0, h, _ => by omega
  | i + 1, h, hno => by
    rcases Nat.lt_or_ge k (i + 1) with hlt | hge
    · rw [longestMatchLoop, hno (i + 1) hlt le_rfl]
      exact longestMatchLoop_some t text k id hk hget i (by omega)
        (fun j h1 h2 => hno j h1 (by omega))
    · have : k = i + 1 := by omega
      subst this
      rw [longestMatchLoop, hget]

/-- What the inner loop leaves: nothing matched, or the longest matching
prefix of at most `i` bytes. -/
theorem longestMatchLoop_cases (t : Tokenizer) (text : GoString) :
    ∀ i, (longestMatchLoop t text i = ([], GPT2_EOT) ∧
          ∀ j, 1 ≤ j → j ≤ i → t.tokenMap.get (text.take j) = none) ∨
        ∃ k id, 1 ≤ k ∧ k ≤ i ∧ t.tokenMap.get (text.take k) = some id ∧
          longestMatchLoop t text i = (text.take k, id) ∧
          ∀ j, k < j → j ≤ i → t.tokenMap.get (text.take j) = none
  | 0 => Or.inl ⟨rfl, fun j h1 h2 => by omega⟩
  | i + 1 => by
    cases hg : t.tokenMap.get (text.take (i + 1)) with
    | some id =>
      refine Or.inr ⟨i + 1, id, by omega, le_rfl, hg, ?_, fun j h1 h2 => by omega⟩
      rw [longestMatchLoop, hg]
    | none =>
      rcases longestMatchLoop_cases t text i with ⟨he, hno⟩ | ⟨k, id, h1, h2, h3, h4, h5⟩
      · refine Or.inl ⟨by rw [longestMatchLoop, hg]; exact he, fun j h1 h2 => ?_⟩
        rcases Nat.lt_or_ge j (i + 1) with h | h
        · exact hno j h1 (by omega)
        · have : j = i + 1 := by omega
          subst this; exact hg
      · refine Or.inr ⟨k, id, h1, by omega, h3, by rw [longestMatchLoop, hg]; exact h4,
          fun j h6 h7 => ?_⟩
        rcases Nat.lt_or_ge j (i + 1) with h | h
        · exact h5 j h6 (by omega)
        · have : j = i + 1 := by omega
          subst this; exact hg

theorem encodeLoop_total (t : Tokenizer) :
    ∀ n text, text.length ≤ n → ∃ ids, ∀ fuel acc, text.length ≤ fuel →
      encodeLoop t fuel text acc = some (acc ++ ids)
  | _, [], _ => ⟨[], fun fuel acc _ => by cases fuel <;> simp [encodeLoop]⟩
  | 0, _ :: _, h => by simp at h
  | n + 1, b :: bs, h => by
    by_cases hf : (longestMatchLoop t (b :: bs) (b :: bs).length).1 = []
    · obtain ⟨ids, hids⟩ := encodeLoop_total t n bs (by simpa using h)
      refine ⟨GPT2_EOT :: ids, fun fuel acc hfuel => ?_⟩
      cases fuel with
      | zero => simp at hfuel
      | succ fuel =>
        rw [encodeLoop]
        simp only [hf, if_true]
        rw [hids fuel _ (by simpa using hfuel)]
        simp
    · have hpos : 0 < (longestMatchLoop t (b :: bs) (b :: bs).length).1.length :=
        List.length_pos.mpr hf
      have hlen : ((b :: bs).drop (longestMatchLoop t (b :: bs) (b :: bs).length).1.length).length
          ≤ bs.length := by
        generalize (longestMatchLoop t (b :: bs) (b :: bs).length).1.length = m at hpos
        simp only [List.length_drop, List.length_cons]; omega
      obtain ⟨ids, hids⟩ := encodeLoop_total t n _ (le_trans hlen (by simpa using h))
      refine ⟨(longestMatchLoop t (b :: bs) (b :: bs).length).2 :: ids,
        fun fuel acc hfuel => ?_⟩
      cases fuel with
      | zero => simp at hfuel
      | succ fuel =>
        rw [encodeLoop]
        simp only [hf, if_false]
        rw [hids fuel _ (le_trans hlen (by simpa using hfuel))]
        simp

theorem encodeLoop_eq (t : Tokenizer) (fuel : Nat) (text : GoString) (acc : List Int)
    (h : text.length ≤ fuel) :
    encodeLoop t fuel text acc = some (acc ++ encodeIds t text) := by
  obtain ⟨ids, hids⟩ := encodeLoop_total t text.length text le_rfl
  have : encodeIds t text = ids := by
    unfold encodeIds; rw [hids _ [] le_rfl]; simp
  rw [this]; exact hids fuel acc h

theorem Encode_eq (t : Tokenizer) (text : GoString) :
    t.Encode text = some (encodeIds t text, none) := by
  unfold Tokenizer.Encode
  rw [encodeLoop_eq t _ text [] le_rfl]; simp

theorem encodeIds_nil (t : Tokenizer) : encodeIds t [] = [] := by
  simp [encodeIds, encodeLoop]

theorem encodeIds_fallback (t : Tokenizer) (text : GoString) (hne : text ≠ [])
    (hno : ∀ j, 1 ≤ j → j ≤ text.length → t.tokenMap.get (text.take j) = none) :
    encodeIds t text = GPT2_EOT :: encodeIds t (text.drop 1) := by
  cases text with
  | nil => exact absurd rfl hne
  | cons b bs =>
    have h1 := encodeLoop_eq t (b :: bs).length (b :: bs) [] le_rfl
    have hl := longestMatchLoop_none t (b :: bs) (b :: bs).length hno
    simp only [List.length_cons] at h1 hl
    rw [encodeLoop] at h1
    simp only [List.length_cons, hl, if_true] at h1
    rw [encodeLoop_eq t _ bs _ le_rfl] at h1
    simpa using h1.symm

theorem encodeIds_match (t : Tokenizer) (text : GoString) (k : Nat) (id : Int)
    (hk : 1 ≤ k) (hkl : k ≤ text.length)
    (hget : t.tokenMap.get (text.take k) = some id)
    (hno : ∀ j, k < j → j ≤ text.length → t.tokenMap.get (text.take j) = none) :
    encodeIds t text = id :: encodeIds t (text.drop k) := by
  cases text with
  | nil => simp at hkl; omega
  | cons b bs =>
    have h1 := encodeLoop_eq t (b :: bs).length (b :: bs) [] le_rfl
    have hl := longestMatchLoop_some t (b :: bs) k id hk hget (b :: bs).length hkl hno
    have hne : (b :: bs).take k ≠ [] := by
      intro h
      have := congrArg List.length h
      simp only [List.length_take, List.length_cons, List.length_nil] at this
      simp only [List.length_cons] at hkl
      omega
    have hlen : ((b :: bs).take k).length = k := by
      simp only [List.length_take]; omega
    simp only [List.length_cons] at h1 hl
    rw [encodeLoop] at h1
    simp only [List.length_cons, hl, hne, if_false, hlen] at h1
    rw [encodeLoop_eq t _ _ _ (by simp only [List.length_drop, List.length_cons]; omega)] at h1
    simpa using h1.symm

theorem take_ne_nil_of_pos {α : Type} (text : List α) (j : Nat) (h1 : 1 ≤ j)
    (hne : text ≠ []) : text.take j ≠ [] := by
  cases text with
  | nil => exact absurd rfl hne
  | cons b bs =>
    cases j with
    | zero => omega
    | succ j => simp

/-- C1: `Tokenizer.Encode` is the longest-match encoder.  The empty text
gives no id; when some non-empty prefix of the text is a key of `tokenMap`,
the id of the longest such prefix comes first and the text after that prefix
is encoded next; when no non-empty prefix is a key, 50256 comes first and
the text after its first byte is encoded next.  With the vocabulary
`a`, `ab`, `abc` the text `abcab` is encoded as `[2, 1]`. -/
theorem Encode_longest_match (t : Tokenizer) :
    t.Encode [] = some ([], none) ∧
    (∀ (text p : GoString) (id : Int), p ≠ [] → p <+: text →
      t.tokenMap.get p = some id →
      (∀ q : GoString, q <+: text → (t.tokenMap.get q).isSome → q.length ≤ p.length) →
      ∃ rest, t.Encode (text.drop p.length) = some (rest, none) ∧
        t.Encode text = some (id :: rest, none)) ∧
    (∀ text : GoString, text ≠ [] →
      (∀ q : GoString, q ≠ [] → q <+: text → t.tokenMap.get q = none) →
      ∃ rest, t.Encode (text.drop 1) = some (rest, none) ∧
        t.Encode text = some (50256 :: rest, none)) ∧
    (newTokenizer [[97], [97, 98], [97, 98, 99]]).Encode [97, 98, 99, 97, 98]
      = some ([2, 1], none) := by
  refine ⟨by rw [Encode_eq, encodeIds_nil], ?_, ?_, by decide⟩
  · intro text p id hp hpre hget hmax
    have hpt : p = text.take p.length := List.prefix_iff_eq_take.mp hpre
    have hlen : p.length ≤ text.length := hpre.length_le
    refine ⟨encodeIds t (text.drop p.length), Encode_eq _ _, ?_⟩
    rw [Encode_eq, encodeIds_match t text p.length id (List.length_pos.mpr hp) hlen
      (by rw [← hpt]; exact hget) ?_]
    intro j hj hjl
    cases hq : t.tokenMap.get (text.take j) with
    | none => rfl
    | some v =>
      have := hmax (text.take j) (List.take_prefix j text) (by rw [hq]; rfl)
      rw [List.length_take] at this
      omega
  · intro text hne hno
    refine ⟨encodeIds t (text.drop 1), Encode_eq _ _, ?_⟩
    rw [Encode_eq, encodeIds_fallback t text hne]
    · rfl
    · intro j h1 _
      exact hno _ (take_ne_nil_of_pos text j h1 hne) (List.take_prefix j text)

theorem Encode_longest_match_witness :
    ∃ rest, (newTokenizer [[97], [97, 98], [97, 98, 99]]).Encode
        (([97, 98, 99, 97, 98] : GoString).drop ([97, 98, 99] : GoString).length)
          = some (rest, none) ∧
      (newTokenizer [[97], [97, 98], [97, 98, 99]]).Encode [97, 98, 99, 97, 98]
        = some (2 :: rest, none) :=
  (Encode_longest_match (newTokenizer [[97], [97, 98], [97, 98, 99]])).2.1
    [97, 98, 99, 97, 98] [97, 98, 99] 2 (by decide) ⟨[97, 98], rfl⟩ (by decide)
    (fun q hq hs => by
      by_contra hlt
      have h5 := hq.length_le
      have hq5 : q = ([97, 98, 99, 97, 98] : GoString).take q.length :=
        List.prefix_iff_eq_take.mp hq
      have : q.length = 4 ∨ q.length = 5 := by
        simp only [List.length_cons, List.length_nil] at h5 hlt; omega
      rcases this with h | h <;> rw [h] at hq5 <;> subst hq5 <;> revert hs <;> decide)

theorem int32_of_lt (x : Int) (h0 : 0 ≤ x) (h1 : x < 2147483648) : int32 x = x := by
  unfold int32; omega

theorem GoMap.get_set {κ ν : Type} [BEq κ] [LawfulBEq κ] [DecidableEq κ] (m : GoMap κ ν) (k k' : κ) (v : ν) :
    (m.set k v).get k' = if k' = k then some v else m.get k' := by
  unfold GoMap.get GoMap.set
  rw [List.lookup_cons]
  by_cases h : k' = k
  · subst h; simp
  · have : (k' == k) = false := by simpa using h
    simp [this, h]

/-- An entry read from the map filled by `newTokenizer` is either the
index (plus the start index, as an `int32`) of the last occurrence of the
key in the list, or an entry of the map the loop started from. -/
theorem fillTokenMap_get (s : GoString) (id : Int) :
    ∀ (vocab : List GoString) (i : Nat) (m : GoMap GoString Int),
      (fillTokenMap vocab i m).get s = some id →
      (∃ j, vocab.get? j = some s ∧ (∀ k, j < k → vocab.get? k ≠ some s) ∧
          id = int32 ((i + j : Nat) : Int)) ∨
        (s ∉ vocab ∧ m.get s = some id)
  | [], i, m, h => Or.inr ⟨by simp, h⟩
  | token :: rest, i, m, h => by
    rw [fillTokenMap] at h
    rcases fillTokenMap_get s id rest (i + 1) _ h with ⟨j, hj, hmax, hid⟩ | ⟨hnot, hget⟩
    · refine Or.inl ⟨j + 1, by simpa using hj, fun k hk => ?_, by rw [hid]; congr 2; omega⟩
      cases k with
      | zero => omega
      | succ k => simpa using hmax k (by omega)
    · rw [GoMap.get_set] at hget
      by_cases hs : s = token
      · subst hs
        simp only [if_true, Option.some.injEq] at hget
        refine Or.inl ⟨0, by simp, fun k hk => ?_, by rw [← hget]; simp⟩
        cases k with
        | zero => omega
        | succ k =>
          intro hk'
          exact hnot (List.get?_mem (by simpa using hk'))
      · simp only [hs, if_false] at hget
        exact Or.inr ⟨by simp [hs, hnot], hget⟩

/-- An id read from the map of `newTokenizer vocab` indexes its key in the
table, when the indices fit an `int32`. -/
theorem newTokenizer_get (vocab : List GoString) (hlen : vocab.length < 2147483648)
    (s : GoString) (id : Int) (h : (newTokenizer vocab).tokenMap.get s = some id) :
    0 ≤ id ∧ id < (vocab.length : Int) ∧ vocab.get? id.toNat = some s ∧
      ∀ k, id.toNat < k → vocab.get? k ≠ some s := by
  rcases fillTokenMap_get s id vocab 0 [] h with ⟨j, hj, hmax, hid⟩ | ⟨_, hget⟩
  · have hjl : j < vocab.length := by
      by_contra hge
      rw [List.get?_eq_none.mpr (by omega)] at hj
      exact absurd hj (by simp)
    rw [Nat.zero_add] at hid
    rw [int32_of_lt _ (by omega) (by omega)] at hid
    subst hid
    exact ⟨by omega, by omega, by simpa using hj, by simpa using hmax⟩
  · simp [GoMap.get] at hget

theorem encodeIds_step (t : Tokenizer) (text : GoString) (hne : text ≠ []) :
    ∃ k id, 1 ≤ k ∧ k ≤ text.length ∧
      encodeIds t text = id :: encodeIds t (text.drop k) ∧
      ((id = GPT2_EOT ∧ k = 1 ∧
          ∀ j, 1 ≤ j → j ≤ text.length → t.tokenMap.get (text.take j) = none) ∨
        (t.tokenMap.get (text.take k) = some id ∧
          ∀ j, k < j → j ≤ text.length → t.tokenMap.get (text.take j) = none)) := by
  have hpos : 1 ≤ text.length := List.length_pos.mpr hne
  rcases longestMatchLoop_cases t text text.length with ⟨_, hno⟩ | ⟨k, id, h1, h2, h3, _, h5⟩
  · exact ⟨1, GPT2_EOT, le_rfl, hpos, encodeIds_fallback t text hne hno,
      Or.inl ⟨rfl, rfl, hno⟩⟩
  · exact ⟨k, id, h1, h2, encodeIds_match t text k id h1 h2 h3 h5, Or.inr ⟨h3, h5⟩⟩

/-- Decoding what was encoded: without the sentinel among the ids the text
comes back behind what was already decoded; with it, at least one byte is
lost whenever a text is returned without error. -/
theorem decodeLoop_encodeIds (vocab : List GoString) (hlen : vocab.length < 2147483648) :
    ∀ n (text : GoString), text.length ≤ n → ∀ s : GoString,
      (GPT2_EOT ∉ encodeIds (newTokenizer vocab) text →
        decodeLoop (newTokenizer vocab) (encodeIds (newTokenizer vocab) text) s
          = .returned (s ++ text, none)) ∧
      (∀ r, decodeLoop (newTokenizer vocab) (encodeIds (newTokenizer vocab) text) s
          = .returned (r, none) →
        r.length + (if GPT2_EOT ∈ encodeIds (newTokenizer vocab) text then 1 else 0)
          ≤ s.length + text.length)
  | _, [], _, s => by
    rw [encodeIds_nil]
    refine ⟨fun _ => by simp [decodeLoop], fun r hr => ?_⟩
    simp only [decodeLoop, GoRun.returned.injEq, Prod.mk.injEq, and_true] at hr
    subst hr; simp
  | 0, _ :: _, h, _ => by simp at h
  | n + 1, b :: bs, h, s => by
    obtain ⟨k, id, hk1, hkl, hstep, hcase⟩ :=
      encodeIds_step (newTokenizer vocab) (b :: bs) (by simp)
    have hdl : ((b :: bs).drop k).length ≤ n := by
      simp only [List.length_drop, List.length_cons] at h hkl ⊢; omega
    have hdl' : ((b :: bs).drop k).length + k = (b :: bs).length := by
      simp only [List.length_drop]; omega
    have ih := decodeLoop_encodeIds vocab hlen n ((b :: bs).drop k) hdl
    rw [hstep]
    have htab : (newTokenizer vocab).tokenTable = vocab := rfl
    have h32 : int32 ((vocab.length : Nat) : Int) = vocab.length :=
      int32_of_lt _ (by omega) (by omega)
    by_cases hid : id = GPT2_EOT
    · subst hid
      refine ⟨fun hnot => absurd (List.mem_cons_self _ _) hnot, fun r hr => ?_⟩
      rw [decodeLoop] at hr
      split at hr
      · simp at hr
      · simp only [ne_eq, not_true_eq_false, if_false] at hr
        have := (ih s).2 r hr
        simp only [List.mem_cons, true_or, if_true]
        split at this <;> omega
    · have hget : (newTokenizer vocab).tokenMap.get ((b :: bs).take k) = some id := by
        rcases hcase with ⟨h1, _⟩ | ⟨h1, _⟩
        · exact absurd h1 hid
        · exact h1
      obtain ⟨h0, hlt, hpiece, _⟩ := newTokenizer_get vocab hlen _ id hget
      have hloop : ∀ ids : List Int, decodeLoop (newTokenizer vocab) (id :: ids) s
          = decodeLoop (newTokenizer vocab) ids (s ++ (b :: bs).take k) := by
        intro ids
        rw [decodeLoop, htab, h32]
        simp only [ge_iff_le, not_le.mpr hlt, if_false, ne_eq, hid, not_false_eq_true,
          if_true, h0, hpiece]
      rw [hloop]
      have hmem : GPT2_EOT ∈ id :: encodeIds (newTokenizer vocab) ((b :: bs).drop k) ↔
          GPT2_EOT ∈ encodeIds (newTokenizer vocab) ((b :: bs).drop k) := by
        simp only [List.mem_cons]
        exact ⟨fun h => h.resolve_left (fun e => hid e.symm), Or.inr⟩
      have hlk : ((b :: bs).take k).length = k := by
        rw [List.length_take]; omega
      refine ⟨fun hnot => ?_, fun r hr => ?_⟩
      · rw [(ih _).1 (fun hm => hnot (hmem.mpr hm)), List.append_assoc, List.take_append_drop]
      · have := (ih _).2 r hr
        rw [List.length_append, hlk] at this
        simp only [hmem]
        omega

/-- C2, as stated, fails: with the vocabulary `ab`, `abc`, `cd` the text
`abcd` is the concatenation of the entries `ab` and `cd`, yet the encoder
takes `abc`, falls back to 50256 for `d`, and decoding `[1, 50256]` returns
the error instead of the text. -/
theorem greedy_round_trip_counterexample :
    ([97, 98, 99, 100] : GoString) = [97, 98] ++ [99, 100] ∧
    ([97, 98] : GoString) ∈ (newTokenizer [[97, 98], [97, 98, 99], [99, 100]]).tokenTable ∧
    ([99, 100] : GoString) ∈ (newTokenizer [[97, 98], [97, 98, 99], [99, 100]]).tokenTable ∧
    (newTokenizer [[97, 98], [97, 98, 99], [99, 100]]).Encode [97, 98, 99, 100]
      = some ([1, 50256], none) ∧
    (newTokenizer [[97, 98], [97, 98, 99], [99, 100]]).Decode [1, 50256]
      = .returned ([], some GoError.notValidToken) := by
  decide

/-- C2, amended: for a vocabulary whose indices fit an `int32`, encoding
always returns, and decoding the returned ids gives back exactly the text,
without error, if and only if the id 50256 is not among them. -/
theorem greedy_round_trip_iff (vocab : List GoString) (hlen : vocab.length < 2147483648)
    (text : GoString) :
    ∃ ids, (newTokenizer vocab).Encode text = some (ids, none) ∧
      ((newTokenizer vocab).Decode ids = .returned (text, none) ↔ GPT2_EOT ∉ ids) := by
  refine ⟨encodeIds (newTokenizer vocab) text, Encode_eq _ _, ?_⟩
  have key := decodeLoop_encodeIds vocab hlen text.length text le_rfl []
  constructor
  · intro hdec hmem
    have := key.2 text hdec
    simp only [hmem, if_true, List.length_nil] at this
    omega
  · intro hnot
    simpa [Tokenizer.Decode] using key.1 hnot

theorem greedy_round_trip_iff_witness :
    ([[97], [98]] : List GoString).length < 2147483648 ∧
    ∃ ids, (newTokenizer [[97], [98]]).Encode [98, 97] = some (ids, none) ∧
      ((newTokenizer [[97], [98]]).Decode ids = .returned ([98, 97], none) ↔
        GPT2_EOT ∉ ids) :=
  ⟨by decide, greedy_round_trip_iff [[97], [98]] (by decide) [98, 97]⟩

theorem decodeLoop_skip_sentinel (t : Tokenizer)
    (h : GPT2_EOT < int32 (t.tokenTable.length : Int)) (ys : List Int) :
    ∀ (xs : List Int) (s : GoString),
      decodeLoop t (xs ++ [GPT2_EOT] ++ ys) s = decodeLoop t (xs ++ ys) s
  | [], s => by
    simp only [List.nil_append, List.singleton_append]
    rw [decodeLoop]
    simp [not_le.mpr h]
  | x :: xs, s => by
    simp only [List.cons_append]
    rw [decodeLoop, decodeLoop]
    have ih := decodeLoop_skip_sentinel t h ys xs
    simp only [List.append_assoc, List.singleton_append] at ih
    simp only [List.append_assoc, List.singleton_append, ih]

/-- C3, as stated, fails at a one-token vocabulary: the id 50256 alone is
answered with the error, whereas the empty sequence decodes to the empty
text without error. -/
theorem Decode_sentinel_counterexample :
    (newTokenizer [[97]]).Decode ([] ++ [50256] ++ []) =
      .returned ([], some GoError.notValidToken) ∧
    (newTokenizer [[97]]).Decode ([] ++ []) = .returned ([], none) := by
  decide

/-- C3, amended: when 50256 is below `int32(len(tokenTable))`, decoding
`xs ++ [50256] ++ ys` gives the same outcome as decoding `xs ++ ys`; when it
is not, a sequence that starts with 50256 is answered with the error. -/
theorem Decode_sentinel_skip (t : Tokenizer) (xs ys : List Int) :
    (GPT2_EOT < int32 (t.tokenTable.length : Int) →
      t.Decode (xs ++ [GPT2_EOT] ++ ys) = t.Decode (xs ++ ys)) ∧
    (int32 (t.tokenTable.length : Int) ≤ GPT2_EOT →
      t.Decode (GPT2_EOT :: ys) = .returned ([], some GoError.notValidToken)) := by
  refine ⟨fun h => decodeLoop_skip_sentinel t h ys xs [], fun h => ?_⟩
  unfold Tokenizer.Decode
  rw [decodeLoop]
  simp [h]

theorem Decode_sentinel_skip_witness :
    (GPT2_EOT < int32 (((Tokenizer.mk 50257 (List.replicate 50257 [97]) [] true).tokenTable.length
        : Nat) : Int) ∧
      (Tokenizer.mk 50257 (List.replicate 50257 [97]) [] true).Decode ([0] ++ [GPT2_EOT] ++ [1])
        = (Tokenizer.mk 50257 (List.replicate 50257 [97]) [] true).Decode ([0] ++ [1])) ∧
    (int32 (((newTokenizer [[97]]).tokenTable.length : Nat) : Int) ≤ GPT2_EOT ∧
      (newTokenizer [[97]]).Decode (GPT2_EOT :: [0])
        = .returned ([], some GoError.notValidToken)) :=
  have h1 : GPT2_EOT < int32 (((Tokenizer.mk 50257 (List.replicate 50257 [97]) [] true).tokenTable.length
      : Nat) : Int) := by
    simp only [List.length_replicate]; decide
  have h2 : int32 (((newTokenizer [[97]]).tokenTable.length : Nat) : Int) ≤ GPT2_EOT := by
    decide
  ⟨⟨h1, (Decode_sentinel_skip _ [0] [1]).1 h1⟩, ⟨h2, (Decode_sentinel_skip _ [] [0]).2 h2⟩⟩

/-- C4 at a negative id: the range test lets `-1` pass and the table is
then indexed with it, which panics. -/
theorem Decode_negative_id :
    ¬ ((-1 : Int) ≥ int32 ((newTokenizer [[97]]).tokenTable.length : Int)) ∧
    (newTokenizer [[97]]).Decode [-1] = .panicked GoPanic.indexOutOfRange := by
  decide

/-! ## Properties of the byte-pair tokenizer -/

theorem getPairs_getElem? : ∀ (chars : List Str) (i : Nat) (key : Str),
    (getPairs chars)[i]? = some key ↔
      ∃ a b, chars[i]? = some a ∧ chars[i + 1]? = some b ∧ key = a ++ [','] ++ b
  | [], i, key => by simp [getPairs]
  | [a], i, key => by
    simp [getPairs]
  | a :: b :: rest, 0, key => by
    simp only [getPairs, List.getElem?_cons_zero, Option.some.injEq, zero_add,
      List.getElem?_cons_succ]
    constructor
    · intro h; exact ⟨a, b, rfl, rfl, h.symm⟩
    · rintro ⟨x, y, hx, hy, hk⟩; subst hx hy; exact hk.symm
  | a :: b :: rest, i + 1, key => by
    have ih := getPairs_getElem? (b :: rest) i key
    simp only [List.getElem?_cons_succ] at ih
    simp only [getPairs, List.getElem?_cons_succ]
    exact ih

theorem getPairs_ne_nil (chars : List Str) : ∀ p ∈ getPairs chars, p ≠ [] := by
  intro p hp
  obtain ⟨i, hi⟩ := List.getElem?_of_mem hp
  obtain ⟨a, b, _, _, hk⟩ := (getPairs_getElem? chars i p).mp hi
  subst hk; simp

/-- What the selection loop leaves after a list of non-empty keys: either
nothing was chosen and no key has a rank below the largest `int`, or the
chosen key is the first one of least rank. -/
theorem selectMin_spec (ranks : GoMap Str Int) (l : List Str) (hl : ∀ p ∈ l, p ≠ []) :
    ((selectMin ranks l).1 = [] ∧ (selectMin ranks l).2 = maxInt ∧
        ∀ p ∈ l, ∀ r, ranks.get p = some r → maxInt ≤ r) ∨
      ((selectMin ranks l).1 ≠ [] ∧ (selectMin ranks l).2 < maxInt ∧
        ∃ i, l[i]? = some (selectMin ranks l).1 ∧
          ranks.get (selectMin ranks l).1 = some (selectMin ranks l).2 ∧
          (∀ p ∈ l, ∀ r, ranks.get p = some r → (selectMin ranks l).2 ≤ r) ∧
          ∀ (j : Nat) (p : Str) (r : Int), j < i → l[j]? = some p → ranks.get p = some r →
            (selectMin ranks l).2 < r) := by
  induction l using List.reverseRecOn with
  | nil => exact Or.inl ⟨rfl, rfl, by simp⟩
  | append_singleton l p ih =>
    have hl' : ∀ q ∈ l, q ≠ [] := fun q hq => hl q (by simp [hq])
    have hp : p ≠ [] := hl p (by simp)
    have hfold : selectMin ranks (l ++ [p]) = selectStep ranks (selectMin ranks l) p := by
      simp [selectMin, List.foldl_append]
    rw [hfold]
    have hbound : ∀ {i : Nat} {q : Str}, l[i]? = some q → (l ++ [p])[i]? = some q := by
      intro i q h
      have hi : i < l.length := by
        by_contra hge
        rw [List.getElem?_eq_none (by omega)] at h
        exact absurd h (by simp)
      rw [List.getElem?_append_left hi]; exact h
    have hback : ∀ {j : Nat} {q : Str}, j < l.length → (l ++ [p])[j]? = some q →
        l[j]? = some q := by
      intro j q hj h
      rwa [List.getElem?_append_left hj] at h
    cases hg : ranks.get p with
    | none =>
      have hs : selectStep ranks (selectMin ranks l) p = selectMin ranks l := by
        simp [selectStep, hg]
      rw [hs]
      rcases ih hl' with ⟨h1, h2, h3⟩ | ⟨h1, h2, i, h3, h4, h5, h6⟩
      · refine Or.inl ⟨h1, h2, fun q hq r hr => ?_⟩
        rcases List.mem_append.mp hq with hq | hq
        · exact h3 q hq r hr
        · simp only [List.mem_singleton] at hq; subst hq; rw [hg] at hr; exact absurd hr (by simp)
      · have hi : i < l.length := by
          by_contra hge
          rw [List.getElem?_eq_none (by omega)] at h3
          exact absurd h3 (by simp)
        refine Or.inr ⟨h1, h2, i, hbound h3, h4, fun q hq r hr => ?_, fun j q r hj hq hr => ?_⟩
        · rcases List.mem_append.mp hq with hq | hq
          · exact h5 q hq r hr
          · simp only [List.mem_singleton] at hq; subst hq; rw [hg] at hr
            exact absurd hr (by simp)
        · exact h6 j q r hj (hback (by omega) hq) hr
    | some rank =>
      by_cases hlt : rank < (selectMin ranks l).2
      · have hs : selectStep ranks (selectMin ranks l) p = (p, rank) := by
          simp [selectStep, hg, hlt]
        rw [hs]
        have hall : ∀ q ∈ l, ∀ r, ranks.get q = some r → (selectMin ranks l).2 ≤ r := by
          rcases ih hl' with ⟨_, h2, h3⟩ | ⟨_, _, i, _, _, h5, _⟩
          · rw [h2]; exact h3
          · exact h5
        have hmax : (selectMin ranks l).2 ≤ maxInt := by
          rcases ih hl' with ⟨_, h2, _⟩ | ⟨_, h2, _⟩
          · exact le_of_eq h2
          · exact le_of_lt h2
        refine Or.inr ⟨hp, lt_of_lt_of_le hlt hmax, l.length, by simp, hg,
          fun q hq r hr => ?_, fun j q r hj hq hr => ?_⟩
        · rcases List.mem_append.mp hq with hq | hq
          · exact le_trans (le_of_lt hlt) (hall q hq r hr)
          · simp only [List.mem_singleton] at hq; subst hq; rw [hg] at hr
            simp only [Option.some.injEq] at hr; exact le_of_eq hr
        · exact lt_of_lt_of_le hlt (hall q (List.getElem?_mem (hback hj hq)) r hr)
      · have hs : selectStep ranks (selectMin ranks l) p = selectMin ranks l := by
          simp [selectStep, hg, hlt]
        rw [hs]
        rcases ih hl' with ⟨h1, h2, h3⟩ | ⟨h1, h2, i, h3, h4, h5, h6⟩
        · refine Or.inl ⟨h1, h2, fun q hq r hr => ?_⟩
          rcases List.mem_append.mp hq with hq | hq
          · exact h3 q hq r hr
          · simp only [List.mem_singleton] at hq; subst hq; rw [hg] at hr
            simp only [Option.some.injEq] at hr; subst hr
            rw [h2] at hlt; exact not_lt.mp hlt
        · have hi : i < l.length := by
            by_contra hge
            rw [List.getElem?_eq_none (by omega)] at h3
            exact absurd h3 (by simp)
          refine Or.inr ⟨h1, h2, i, hbound h3, h4, fun q hq r hr => ?_,
            fun j q r hj hq hr => ?_⟩
          · rcases List.mem_append.mp hq with hq | hq
            · exact h5 q hq r hr
            · simp only [List.mem_singleton] at hq; subst hq; rw [hg] at hr
              simp only [Option.some.injEq] at hr; subst hr
              exact not_lt.mp hlt
          · exact h6 j q r hj (hback (by omega) hq) hr

theorem bpeLoop_mono (ranks : GoMap Str Int) (r : List Str) :
    ∀ (fuel fuel' : Nat) (chars pairs : List Str), fuel ≤ fuel' →
      bpeLoop ranks fuel chars pairs = some r → bpeLoop ranks fuel' chars pairs = some r
  | 0, _, _, _, _, h => by simp [bpeLoop] at h
  | fuel + 1, 0, _, _, hle, _ => by omega
  | fuel + 1, fuel' + 1, chars, pairs, hle, h => by
    rw [bpeLoop] at h ⊢
    split
    · rw [if_pos ‹_›] at h; exact h
    · rw [if_neg ‹_›] at h
      simp only at h ⊢
      split
      · rw [if_pos ‹_›] at h; exact h
      · rw [if_neg ‹_›] at h
        split
        · rw [if_pos ‹_›] at h; exact h
        · rw [if_neg ‹_›] at h
          exact bpeLoop_mono ranks r fuel fuel' _ _ (by omega) h

theorem bpe_mono (t : Tokenizer2) (fuel fuel' : Nat) (token : Str) (r : List Str)
    (hle : fuel ≤ fuel') (h : t.bpe fuel token = some r) : t.bpe fuel' token = some r := by
  unfold Tokenizer2.bpe at h ⊢
  split
  · simpa [‹t.specialTokens.get token = some _›] using h
  · simp only [‹t.specialTokens.get token = none›] at h
    by_cases hc : (explode token).length = 1
    · simp only [hc, if_true] at h ⊢; exact h
    · simp only [hc, if_false] at h ⊢
      exact bpeLoop_mono _ r fuel fuel' _ _ hle h

/-- C5: when the selection loop of `bpe` leaves a pair, that pair is the key
`left,right` of two adjacent symbols, it has a rank in `bpeRanks`, no
adjacent pair with a rank has a lower one, and every such pair further left
has a strictly higher one.  With the rules `a,b` and `b,c` of equal rank,
`bpe` turns `abc` into `ab`, `c`. -/
theorem bpe_pair_selection :
    (∀ (ranks : GoMap Str Int) (chars : List Str),
      (selectMin ranks (getPairs chars)).1 ≠ [] →
      ∃ (i : Nat) (left right : Str) (rank : Int),
        chars[i]? = some left ∧ chars[i + 1]? = some right ∧
        selectMin ranks (getPairs chars) = (left ++ [','] ++ right, rank) ∧
        ranks.get (left ++ [','] ++ right) = some rank ∧
        ∀ (j : Nat) (l r : Str) (rk : Int), chars[j]? = some l → chars[j + 1]? = some r →
          ranks.get (l ++ [','] ++ r) = some rk → rank ≤ rk ∧ (j < i → rank < rk)) ∧
    (∀ fuel, 2 ≤ fuel →
      tieTokenizer.bpe fuel ['a', 'b', 'c'] = some [['a', 'b'], ['c']]) := by
  refine ⟨fun ranks chars hsel => ?_, fun fuel hf => bpe_mono _ 2 fuel _ _ hf (by decide)⟩
  rcases selectMin_spec ranks (getPairs chars) (getPairs_ne_nil chars) with
    ⟨h1, _⟩ | ⟨_, _, i, h3, h4, h5, h6⟩
  · exact absurd h1 hsel
  · obtain ⟨left, right, hl, hr, hkey⟩ := (getPairs_getElem? chars i _).mp h3
    refine ⟨i, left, right, (selectMin ranks (getPairs chars)).2, hl, hr, ?_, ?_, ?_⟩
    · rw [← hkey]
    · rw [← hkey]; exact h4
    · intro j l r rk hjl hjr hrk
      have hmem : (getPairs chars)[j]? = some (l ++ [','] ++ r) :=
        (getPairs_getElem? chars j _).mpr ⟨l, r, hjl, hjr, rfl⟩
      exact ⟨h5 _ (List.getElem?_mem hmem) rk hrk, fun hji => h6 j _ rk hji hmem hrk⟩

theorem bpe_pair_selection_witness :
    (selectMin tieTokenizer.bpeRanks (getPairs [['a'], ['b'], ['c']])).1 ≠ [] ∧
    ∃ (i : Nat) (left right : Str) (rank : Int),
      [['a'], ['b'], ['c']][i]? = some left ∧ [['a'], ['b'], ['c']][i + 1]? = some right ∧
      selectMin tieTokenizer.bpeRanks (getPairs [['a'], ['b'], ['c']])
        = (left ++ [','] ++ right, rank) ∧
      tieTokenizer.bpeRanks.get (left ++ [','] ++ right) = some rank ∧
      ∀ (j : Nat) (l r : Str) (rk : Int), [['a'], ['b'], ['c']][j]? = some l →
        [['a'], ['b'], ['c']][j + 1]? = some r →
        tieTokenizer.bpeRanks.get (l ++ [','] ++ r) = some rk → rank ≤ rk ∧ (j < i → rank < rk) :=
  ⟨by decide, bpe_pair_selection.1 tieTokenizer.bpeRanks [['a'], ['b'], ['c']] (by decide)⟩

theorem bpeLoop_comma_stuck :
    ∀ fuel, bpeLoop commaTokenizer.bpeRanks fuel [[','], ['.']] (getPairs [[','], ['.']]) = none
  | 0 => rfl
  | fuel + 1 => by
    have ih := bpeLoop_comma_stuck fuel
    have hstep : bpeLoop commaTokenizer.bpeRanks (fuel + 1) [[','], ['.']]
        (getPairs [[','], ['.']])
        = bpeLoop commaTokenizer.bpeRanks fuel [[','], ['.']] (getPairs [[','], ['.']]) := by
      rw [bpeLoop]
      have h1 : ¬ (getPairs [[','], ['.']]).length = 0 := by decide
      have h2 : ¬ (selectMin commaTokenizer.bpeRanks (getPairs [[','], ['.']])).1 = [] := by
        decide
      have h3 : mergePass
          ((Split ',' (selectMin commaTokenizer.bpeRanks (getPairs [[','], ['.']])).1).getD 0 [])
          ((Split ',' (selectMin commaTokenizer.bpeRanks (getPairs [[','], ['.']])).1).getD 1 [])
          [[','], ['.']] = [[','], ['.']] := by decide
      simp only [h1, h2, if_false, h3]
      rfl
    rw [hstep]; exact ih

/-- C6 at the chunk `,.` with the merge rule `,,.`: the key splits at its
commas into two empty strings and a full stop, the merge pass returns the
symbols `,` and `.` unchanged, and so the loop never ends: whatever the
fuel, neither `bpe` nor `Encode` returns. -/
theorem bpe_comma_diverges :
    Split ',' [',', ',', '.'] = [[], [], ['.']] ∧
    mergePass [] [] [[','], ['.']] = [[','], ['.']] ∧
    FindAllString commaTokenizer.bpeRegex [',', '.'] = [[',', '.']] ∧
    (∀ fuel, commaTokenizer.bpe fuel [',', '.'] = none) ∧
    (∀ fuel, commaTokenizer.Encode fuel [',', '.'] = none) := by
  have hb : ∀ fuel, commaTokenizer.bpe fuel [',', '.'] = none := by
    intro fuel
    unfold Tokenizer2.bpe
    have h1 : commaTokenizer.specialTokens.get [',', '.'] = none := by decide
    have h2 : ¬ (explode [',', '.']).length = 1 := by decide
    simp only [h1, h2, if_false]
    exact bpeLoop_comma_stuck fuel
  have hf : FindAllString commaTokenizer.bpeRegex [',', '.'] = [[',', '.']] := by decide
  refine ⟨by decide, by decide, hf, hb, fun fuel => ?_⟩
  unfold Tokenizer2.Encode
  rw [hf, encodeChunks, hb fuel]

/-- C7, as stated, fails: the special token `<s>` has id 7, `decoder` has no
entry for 7, and `bpe` returns the empty string as the only symbol. -/
theorem bpe_special_counterexample :
    specialTokenizer.specialTokens.get ['<', 's', '>'] = some 7 ∧
    specialTokenizer.bpe 0 ['<', 's', '>'] = some [[]] ∧
    specialTokenizer.bpe 0 ['<', 's', '>'] ≠ some [['<', 's', '>']] := by
  decide

/-- C7, amended: for a chunk that is a key of `specialTokens`, with id `id`,
`bpe` returns at once, whatever the fuel and the merge ranks, exactly one
symbol: the entry of `decoder` for `id`, or the empty string when `decoder`
has none; this is the chunk itself whenever `decoder` maps `id` to it. -/
theorem bpe_special (t : Tokenizer2) (fuel : Nat) (chunk : Str) (id : Int)
    (h : t.specialTokens.get chunk = some id) :
    t.bpe fuel chunk = some [(t.decoder.get id).getD []] ∧
    (t.decoder.get id = some chunk → t.bpe fuel chunk = some [chunk]) := by
  have h1 : t.bpe fuel chunk = some [(t.decoder.get id).getD []] := by
    unfold Tokenizer2.bpe; rw [h]
  exact ⟨h1, fun hd => by rw [h1, hd]; rfl⟩

theorem bpe_special_witness :
    specialTokenizer.specialTokens.get ['<', 's', '>'] = some 7 ∧
    specialTokenizer.bpe 0 ['<', 's', '>'] = some [(specialTokenizer.decoder.get 7).getD []] ∧
    (specialTokenizer.decoder.get 7 = some ['<', 's', '>'] →
      specialTokenizer.bpe 0 ['<', 's', '>'] = some [['<', 's', '>']]) :=
  ⟨by decide, bpe_special specialTokenizer 0 ['<', 's', '>'] 7 (by decide)⟩

theorem Split_of_not_mem (sep : Char) : ∀ r : Str, sep ∉ r → Split sep r = [r]
  | [], _ => rfl
  | c :: r, h => by
    have hc : c ≠ sep := fun e => h (by simp [e])
    have hr : sep ∉ r := fun e => h (by simp [e])
    rw [Split, if_neg hc, Split_of_not_mem sep r hr]

theorem Split_key (sep : Char) (right : Str) (hr : sep ∉ right) :
    ∀ left : Str, sep ∉ left → Split sep (left ++ [sep] ++ right) = [left, right]
  | [], _ => by
    simp only [List.nil_append, List.singleton_append]
    rw [Split, if_pos rfl, Split_of_not_mem sep right hr]
  | c :: l, h => by
    have hc : c ≠ sep := fun e => h (by simp [e])
    have hl : sep ∉ l := fun e => h (by simp [e])
    have ih := Split_key sep right hr l hl
    simp only [List.cons_append, List.append_assoc, List.singleton_append] at ih ⊢
    rw [Split, if_neg hc, ih]

theorem mergePass_length_le (p0 p1 : Str) :
    ∀ chars : List Str, (mergePass p0 p1 chars).length ≤ chars.length
  | [] => by simp [mergePass]
  | [a] => by simp [mergePass]
  | a :: b :: rest => by
    rw [mergePass]
    split
    · have := mergePass_length_le p0 p1 rest
      simp only [List.length_cons]; omega
    · have := mergePass_length_le p0 p1 (b :: rest)
      simp only [List.length_cons] at this ⊢; omega

theorem mergePass_length_lt (p0 p1 : Str) :
    ∀ (chars : List Str) (i : Nat), chars[i]? = some p0 → chars[i + 1]? = some p1 →
      (mergePass p0 p1 chars).length < chars.length
  | [], i, h, _ => by simp at h
  | [a], i, _, h => by simp at h
  | a :: b :: rest, i, h0, h1 => by
    rw [mergePass]
    split
    · have := mergePass_length_le p0 p1 rest
      simp only [List.length_cons]; omega
    · rename_i hne
      cases i with
      | zero =>
        simp only [List.getElem?_cons_zero, Option.some.injEq, zero_add,
          List.getElem?_cons_succ] at h0 h1
        exact absurd ⟨h0, h1⟩ hne
      | succ i =>
        simp only [List.getElem?_cons_succ] at h0 h1
        have := mergePass_length_lt p0 p1 (b :: rest) i h0 (by simpa using h1)
        simp only [List.length_cons] at this ⊢; omega

theorem mergePass_ne_nil (p0 p1 : Str) :
    ∀ chars : List Str, chars ≠ [] → mergePass p0 p1 chars ≠ []
  | [], h => absurd rfl h
  | [a], _ => by simp [mergePass]
  | a :: b :: rest, _ => by
    rw [mergePass]
    split <;> simp

theorem mergePass_mem (p0 p1 : Str) :
    ∀ (chars : List Str) (s : Str), s ∈ mergePass p0 p1 chars → s = p0 ++ p1 ∨ s ∈ chars
  | [], s, h => by simp [mergePass] at h
  | [a], s, h => by simp only [mergePass] at h; exact Or.inr h
  | a :: b :: rest, s, h => by
    rw [mergePass] at h
    split at h
    · rcases List.mem_cons.mp h with h | h
      · exact Or.inl h
      · rcases mergePass_mem p0 p1 rest s h with h | h
        · exact Or.inl h
        · exact Or.inr (by simp [h])
    · rcases List.mem_cons.mp h with h | h
      · exact Or.inr (by simp [h])
      · rcases mergePass_mem p0 p1 (b :: rest) s h with h | h
        · exact Or.inl h
        · exact Or.inr (List.mem_cons_of_mem _ h)

/-- The loop of `bpe` ends when no symbol contains a comma: every round
that does not leave the loop makes the sequence shorter. -/
theorem bpeLoop_terminates (ranks : GoMap Str Int) :
    ∀ (fuel : Nat) (chars : List Str), (∀ s ∈ chars, ',' ∉ s) → chars.length ≤ fuel + 1 →
      ∃ r, bpeLoop ranks (fuel + 1) chars (getPairs chars) = some r := by
  intro fuel
  induction fuel with
  | zero =>
    intro chars _ hlen
    have hp : (getPairs chars).length = 0 := by
      match chars, hlen with
      | [], _ => rfl
      | [a], _ => rfl
      | _ :: _ :: _, h => simp at h
    exact ⟨chars, by rw [bpeLoop, if_pos hp]⟩
  | succ fuel ih =>
    intro chars hfree hlen
    rw [bpeLoop]
    by_cases hp : (getPairs chars).length = 0
    · exact ⟨chars, by rw [if_pos hp]⟩
    · rw [if_neg hp]
      simp only
      by_cases hm : (selectMin ranks (getPairs chars)).1 = []
      · exact ⟨chars, by rw [if_pos hm]⟩
      · rw [if_neg hm]
        rcases selectMin_spec ranks (getPairs chars) (getPairs_ne_nil chars) with
          ⟨h1, _⟩ | ⟨_, _, i, h3, _⟩
        · exact absurd h1 hm
        · obtain ⟨left, right, hl, hr, hkey⟩ := (getPairs_getElem? chars i _).mp h3
          have hlf : ',' ∉ left := hfree left (List.getElem?_mem hl)
          have hrf : ',' ∉ right := hfree right (List.getElem?_mem hr)
          rw [hkey, Split_key ',' right hrf left hlf]
          simp only [List.getD_cons_zero, List.getD_cons_succ]
          by_cases h1 : (mergePass left right chars).length = 1
          · exact ⟨_, by rw [if_pos h1]⟩
          · rw [if_neg h1]
            apply ih
            · intro s hs
              rcases mergePass_mem left right chars s hs with h | h
              · rw [h]; simp [hlf, hrf]
              · exact hfree s h
            · have := mergePass_length_lt left right chars i hl hr
              omega

/-- A chunk without a comma: `bpe` returns once the fuel exceeds the length
of the chunk. -/
theorem bpe_terminates_of_no_comma (t : Tokenizer2) (chunk : Str) (h : ',' ∉ chunk) :
    ∃ syms, t.bpe (chunk.length + 1) chunk = some syms := by
  unfold Tokenizer2.bpe
  split
  · exact ⟨_, rfl⟩
  · simp only
    split
    · exact ⟨_, rfl⟩
    · apply bpeLoop_terminates
      · intro s hs
        simp only [explode, List.mem_map] at hs
        obtain ⟨c, hc, rfl⟩ := hs
        simp only [List.mem_singleton]
        exact fun e => h (e ▸ hc)
      · simp [explode]

theorem encodeSubTokens_cases (encoder : GoMap Str Int) :
    ∀ (syms : List Str) (acc : List Int),
      (∃ ids, encodeSubTokens encoder syms acc = .ok (acc ++ ids) ∧
          ids.map some = syms.map encoder.get) ∨
        (∃ s ∈ syms, encoder.get s = none ∧ encodeSubTokens encoder syms acc = .error s)
  | [], acc => Or.inl ⟨[], by simp [encodeSubTokens]⟩
  | s :: rest, acc => by
    cases hg : encoder.get s with
    | none => exact Or.inr ⟨s, by simp, hg, by rw [encodeSubTokens, hg]⟩
    | some id =>
      rcases encodeSubTokens_cases encoder rest (acc ++ [id]) with
        ⟨ids, h1, h2⟩ | ⟨u, hu, h1, h2⟩
      · refine Or.inl ⟨id :: ids, ?_, by simp [hg, h2]⟩
        rw [encodeSubTokens, hg]; simpa using h1
      · refine Or.inr ⟨u, by simp [hu], h1, ?_⟩
        rw [encodeSubTokens, hg]; exact h2

theorem encodeChunks_cases (t : Tokenizer2) (fuel : Nat) :
    ∀ (chunks : List Str) (symss : List (List Str)) (acc : List Int),
      chunks.map (t.bpe fuel) = symss.map some →
      (∃ ids, encodeChunks t fuel chunks acc = some (acc ++ ids, none) ∧
          ids.map some = symss.flatten.map t.encoder.get) ∨
        (∃ s ∈ symss.flatten, t.encoder.get s = none ∧
          encodeChunks t fuel chunks acc = some ([], some (GoError.unknownToken s)))
  | [], symss, acc, h => by
    cases symss with
    | nil => exact Or.inl ⟨[], by simp [encodeChunks]⟩
    | cons _ _ => simp at h
  | chunk :: rest, symss, acc, h => by
    cases symss with
    | nil => simp at h
    | cons syms symss =>
      simp only [List.map_cons, List.cons.injEq] at h
      obtain ⟨hb, hrest⟩ := h
      rcases encodeSubTokens_cases t.encoder syms acc with ⟨ids, h1, h2⟩ | ⟨u, hu, h1, h2⟩
      · rcases encodeChunks_cases t fuel rest symss (acc ++ ids) hrest with
          ⟨ids', h3, h4⟩ | ⟨u, hu, h3, h4⟩
        · refine Or.inl ⟨ids ++ ids', ?_, by simp [h2, h4]⟩
          rw [encodeChunks, hb]; simp only [h1]; simpa using h3
        · refine Or.inr ⟨u, by simp [hu], h3, ?_⟩
          rw [encodeChunks, hb]; simp only [h1]; exact h4
      · refine Or.inr ⟨u, by simp [hu], h1, ?_⟩
        rw [encodeChunks, hb]; simp only [h2]

theorem map_some_eq_map_get {α β : Type} (f : α → Option β) (ids : List β) (l : List α)
    (h : ids.map some = l.map f) : ∀ a ∈ l, f a ≠ none := by
  intro a ha hnone
  have : f a ∈ ids.map some := by rw [h]; exact List.mem_map_of_mem f ha
  rw [hnone] at this
  simp at this

/-- When `bpe` returns on every chunk of the text, `Encode` returns; it
returns the unknown-token error and no ids exactly when some symbol of some
chunk is not a key of `encoder`, and otherwise it returns, without error,
the `encoder` entries of all symbols of all chunks in order. -/
theorem Encode2_result (t : Tokenizer2) (fuel : Nat) (text : Str) (symss : List (List Str))
    (hbpe : (FindAllString t.bpeRegex text).map (t.bpe fuel) = symss.map some) :
    ((∃ s ∈ symss.flatten, t.encoder.get s = none) →
      ∃ s ∈ symss.flatten, t.encoder.get s = none ∧
        t.Encode fuel text = some ([], some (GoError.unknownToken s))) ∧
    ((∃ e, t.Encode fuel text = some ([], some e)) →
      ∃ s ∈ symss.flatten, t.encoder.get s = none) ∧
    ((∀ s ∈ symss.flatten, t.encoder.get s ≠ none) →
      ∃ ids, t.Encode fuel text = some (ids, none) ∧
        ids.map some = symss.flatten.map t.encoder.get) := by
  unfold Tokenizer2.Encode
  rcases encodeChunks_cases t fuel _ symss [] hbpe with ⟨ids, h1, h2⟩ | ⟨u, hu, h1, h2⟩
  · refine ⟨fun ⟨s, hs, hn⟩ => absurd hn (map_some_eq_map_get _ ids _ h2 s hs),
      fun ⟨e, he⟩ => ?_, fun _ => ⟨ids, by simpa using h1, h2⟩⟩
    rw [h1] at he
    simp at he
  · refine ⟨fun _ => ⟨u, hu, h1, h2⟩, fun _ => ⟨u, hu, h1⟩, fun hall => absurd h1 (hall u hu)⟩

theorem Encode2_result_witness :
    (FindAllString tieTokenizer.bpeRegex ['a', 'b', 'c', ' ', 'c']).map (tieTokenizer.bpe 2)
        = [[['a', 'b'], ['c']], [[' '], ['c']]].map some ∧
    ((∃ s ∈ [[['a', 'b'], ['c']], [[' '], ['c']]].flatten, tieTokenizer.encoder.get s = none) →
      ∃ s ∈ [[['a', 'b'], ['c']], [[' '], ['c']]].flatten, tieTokenizer.encoder.get s = none ∧
        tieTokenizer.Encode 2 ['a', 'b', 'c', ' ', 'c']
          = some ([], some (GoError.unknownToken s))) ∧
    ((∃ e, tieTokenizer.Encode 2 ['a', 'b', 'c', ' ', 'c'] = some ([], some e)) →
      ∃ s ∈ [[['a', 'b'], ['c']], [[' '], ['c']]].flatten, tieTokenizer.encoder.get s = none) ∧
    ((∀ s ∈ [[['a', 'b'], ['c']], [[' '], ['c']]].flatten, tieTokenizer.encoder.get s ≠ none) →
      ∃ ids, tieTokenizer.Encode 2 ['a', 'b', 'c', ' ', 'c'] = some (ids, none) ∧
        ids.map some = [[['a', 'b'], ['c']], [[' '], ['c']]].flatten.map
          tieTokenizer.encoder.get) :=
  ⟨by decide, Encode2_result tieTokenizer 2 ['a', 'b', 'c', ' ', 'c']
    [[['a', 'b'], ['c']], [[' '], ['c']]] (by decide)⟩

/-- C8 at the text `,.` with the merge rule `,,.`: the text is a single
chunk, both of its characters are keys of `encoder`, so no symbol that could
be formed is missing from `encoder`, and yet `Encode` neither fails nor
succeeds: whatever the fuel, the call of `bpe` on the chunk does not return
and so `Encode` does not return. -/
theorem Encode2_comma_never_returns :
    FindAllString commaTokenizer.bpeRegex [',', '.'] = [[',', '.']] ∧
    commaTokenizer.encoder.get [','] = some 0 ∧
    commaTokenizer.encoder.get ['.'] = some 1 ∧
    commaTokenizer.encoder.get [',', '.'] = none ∧
    (∀ fuel, commaTokenizer.bpe fuel [',', '.'] = none) ∧
    (∀ fuel, commaTokenizer.Encode fuel [',', '.'] = none) := by
  have hf : FindAllString commaTokenizer.bpeRegex [',', '.'] = [[',', '.']] := by decide
  have hb : ∀ fuel, commaTokenizer.bpe fuel [',', '.'] = none := by
    intro fuel
    unfold Tokenizer2.bpe
    have h1 : commaTokenizer.specialTokens.get [',', '.'] = none := by decide
    have h2 : ¬ (explode [',', '.']).length = 1 := by decide
    simp only [h1, h2, if_false]
    exact bpeLoop_comma_stuck fuel
  refine ⟨hf, by decide, by decide, by decide, hb, fun fuel => ?_⟩
  unfold Tokenizer2.Encode
  rw [hf, encodeChunks, hb fuel]

theorem decodeWords_cases (decoder : GoMap Int Str) :
    ∀ (tokens : List Int) (acc : List Str),
      (∃ words, decodeWords decoder tokens acc = .ok (acc ++ words) ∧
          words.map some = tokens.map decoder.get) ∨
        (∃ id ∈ tokens, decoder.get id = none ∧ decodeWords decoder tokens acc = .error id)
  | [], acc => Or.inl ⟨[], by simp [decodeWords]⟩
  | token :: rest, acc => by
    cases hg : decoder.get token with
    | none => exact Or.inr ⟨token, by simp, hg, by rw [decodeWords, hg]⟩
    | some word =>
      rcases decodeWords_cases decoder rest (acc ++ [word]) with
        ⟨words, h1, h2⟩ | ⟨u, hu, h1, h2⟩
      · refine Or.inl ⟨word :: words, ?_, by simp [hg, h2]⟩
        rw [decodeWords, hg]; simpa using h1
      · refine Or.inr ⟨u, by simp [hu], h1, ?_⟩
        rw [decodeWords, hg]; exact h2

theorem ReplaceAll_getElem? (s : Str) (old new : Char) (i : Nat) :
    (ReplaceAll s old new)[i]? = s[i]?.map (fun c => if c = old then new else c) := by
  simp [ReplaceAll]

theorem TrimSpace_spec (s : Str) :
    ∃ pre post, s = pre ++ TrimSpace s ++ post ∧
      (∀ c ∈ pre, isSpace c = true) ∧ (∀ c ∈ post, isSpace c = true) ∧
      (∀ c, (TrimSpace s).head? = some c → isSpace c = false) ∧
      (∀ c, (TrimSpace s).getLast? = some c → isSpace c = false) := by
  have hd : ∀ (l : List Char) (c : Char), (l.dropWhile isSpace).head? = some c →
      isSpace c = false := by
    intro l c h
    have := List.head?_dropWhile_not isSpace l
    rw [h] at this
    simpa using this
  refine ⟨s.takeWhile isSpace, ((s.dropWhile isSpace).reverse.takeWhile isSpace).reverse,
    ?_, fun c hc => (List.mem_takeWhile_imp hc), fun c hc => ?_, fun c hc => ?_, fun c hc => ?_⟩
  · unfold TrimSpace
    rw [List.append_assoc, ← List.reverse_append, List.takeWhile_append_dropWhile,
      List.reverse_reverse, List.takeWhile_append_dropWhile]
  · exact List.mem_takeWhile_imp (List.mem_reverse.mp hc)
  · have hsplit : s.dropWhile isSpace = TrimSpace s ++
        ((s.dropWhile isSpace).reverse.takeWhile isSpace).reverse := by
      unfold TrimSpace
      rw [← List.reverse_append, List.takeWhile_append_dropWhile, List.reverse_reverse]
    cases ht : TrimSpace s with
    | nil => rw [ht] at hc; simp at hc
    | cons a r =>
      rw [ht] at hc hsplit
      simp only [List.head?_cons, Option.some.injEq] at hc
      subst hc
      exact hd s a (by rw [hsplit]; rfl)
  · unfold TrimSpace at hc
    rw [List.getLast?_reverse] at hc
    exact hd _ c hc

/-- C9: `Tokenizer2.Decode` returns the unknown-id error with the empty
text exactly when some id is not a key of `decoder`; otherwise it returns,
without error, the `decoder` entries joined in order, with every `Ġ`
replaced by a space (position by position) and then stripped of the white
space at both ends: what is stripped is white space only, and the result
neither starts nor ends with white space. -/
theorem Decode2_reference (t : Tokenizer2) (tokens : List Int) :
    ((∃ id ∈ tokens, t.decoder.get id = none) →
      ∃ id ∈ tokens, t.decoder.get id = none ∧
        t.Decode tokens = ([], some (GoError.unknownTokenID id))) ∧
    ((t.Decode tokens).2 ≠ none → ∃ id ∈ tokens, t.decoder.get id = none) ∧
    ((∀ id ∈ tokens, t.decoder.get id ≠ none) →
      ∃ (words : List Str) (joined : Str),
        words.map some = tokens.map t.decoder.get ∧
        joined.length = words.flatten.length ∧
        (∀ i : Nat, joined[i]? = words.flatten[i]?.map (fun c => if c = 'Ġ' then ' ' else c)) ∧
        t.Decode tokens = (TrimSpace joined, none) ∧
        ∃ pre post, joined = pre ++ TrimSpace joined ++ post ∧
          (∀ c ∈ pre, isSpace c = true) ∧ (∀ c ∈ post, isSpace c = true) ∧
          (∀ c, (TrimSpace joined).head? = some c → isSpace c = false) ∧
          (∀ c, (TrimSpace joined).getLast? = some c → isSpace c = false)) := by
  unfold Tokenizer2.Decode
  rcases decodeWords_cases t.decoder tokens [] with ⟨words, h1, h2⟩ | ⟨u, hu, h1, h2⟩
  · rw [h1]
    refine ⟨fun ⟨id, hid, hn⟩ => absurd hn (map_some_eq_map_get _ words _ h2 id hid),
      fun h => absurd rfl h, fun _ => ?_⟩
    exact ⟨words, ReplaceAll words.flatten 'Ġ' ' ', h2, by unfold ReplaceAll; rw [List.length_map],
      fun i => ReplaceAll_getElem? _ _ _ i, by simp, TrimSpace_spec _⟩
  · rw [h2]
    exact ⟨fun _ => ⟨u, hu, h1, rfl⟩, fun _ => ⟨u, hu, h1⟩, fun hall => absurd h1 (hall u hu)⟩

theorem Decode2_reference_witness :
    (∃ id ∈ [0, 5], specialTokenizer.decoder.get id = none) ∧
    ∃ id ∈ [0, 5], specialTokenizer.decoder.get id = none ∧
      specialTokenizer.Decode [0, 5] = ([], some (GoError.unknownTokenID id)) :=
  ⟨⟨5, by decide, by decide⟩,
    (Decode2_reference specialTokenizer [0, 5]).1 ⟨5, by decide, by decide⟩⟩

theorem matchRun_pos (p : Char → Bool) (s : Str) (n : Nat) (h : matchRun p s = some n) :
    1 ≤ n := by
  unfold matchRun at h
  split at h
  · simp only [Option.some.injEq] at h; omega
  · simp at h

theorem matchRun_none (p : Char → Bool) (c : Char) (r : Str)
    (h : matchRun p (c :: r) = none) : p c = false := by
  unfold matchRun at h
  split at h
  · simp at h
  · rename_i hlen
    by_contra hp
    simp only [Bool.not_eq_false] at hp
    apply hlen
    simp [runLen, List.takeWhile_cons, hp]

theorem matchOptSpaceRun_pos (p : Char → Bool) (s : Str) (n : Nat)
    (h : matchOptSpaceRun p s = some n) : 1 ≤ n := by
  unfold matchOptSpaceRun at h
  split at h
  · split at h
    · simp only [Option.some.injEq] at h; omega
    · exact matchRun_pos p _ n h
  · simp at h

theorem matchOptSpaceRun_none (p : Char → Bool) (c : Char) (r : Str)
    (h : matchOptSpaceRun p (c :: r) = none) : p c = false := by
  simp only [matchOptSpaceRun] at h
  split at h
  · simp at h
  · exact matchRun_none p c r h

theorem matchAt_pos (re : Regexp) (s : Str) (n : Nat) (h : matchAt re s = some n) :
    1 ≤ n := by
  unfold matchAt at h
  split at h
  · rename_i lit hfind
    have hmem : lit ∈ reLiterals := List.mem_of_find?_eq_some hfind
    have hall : ∀ l ∈ reLiterals, 1 ≤ l.length := by decide
    simp only [Option.some.injEq] at h
    rw [← h]; exact hall lit hmem
  · split at h
    · rename_i m hm
      simp only [Option.some.injEq] at h
      rw [← h]; exact matchOptSpaceRun_pos _ _ _ hm
    · split at h
      · rename_i m hm
        simp only [Option.some.injEq] at h
        rw [← h]; exact matchOptSpaceRun_pos _ _ _ hm
      · split at h
        · rename_i m hm
          simp only [Option.some.injEq] at h
          rw [← h]; exact matchOptSpaceRun_pos _ _ _ hm
        · exact matchRun_pos _ _ _ h

/-- Every character starts a match: a character that is no letter, no
number and not in the third class is in `\s`. -/
theorem matchAt_some (re : Regexp) (c : Char) (r : Str) :
    ∃ n, matchAt re (c :: r) = some n := by
  unfold matchAt
  split
  · exact ⟨_, rfl⟩
  · split
    · exact ⟨_, rfl⟩
    · rename_i hl
      split
      · exact ⟨_, rfl⟩
      · rename_i hn
        split
        · exact ⟨_, rfl⟩
        · rename_i ho
          have h1 := matchOptSpaceRun_none _ c r hl
          have h2 := matchOptSpaceRun_none _ c r hn
          have h3 := matchOptSpaceRun_none _ c r ho
          have hs : reSpace c = true := by
            simp only [reOther, h1, h2, Bool.not_false, Bool.and_true,
              Bool.not_eq_false'] at h3
            exact h3
          cases hm : matchRun reSpace (c :: r) with
          | some n => exact ⟨n, rfl⟩
          | none => rw [matchRun_none _ c r hm] at hs; exact absurd hs (by simp)

/-- The chunks of the pre-tokenizer, put together, are the text. -/
theorem findAllFrom_flatten (re : Regexp) :
    ∀ (fuel : Nat) (s : Str), s.length ≤ fuel → (findAllFrom re fuel s).flatten = s
  | 0, [], _ => by simp [findAllFrom]
  | 0, _ :: _, h => by simp at h
  | fuel + 1, [], _ => by simp [findAllFrom]
  | fuel + 1, c :: r, h => by
    obtain ⟨n, hn⟩ := matchAt_some re c r
    have hpos := matchAt_pos re _ n hn
    rw [findAllFrom, hn]
    simp only [List.flatten_cons]
    rw [findAllFrom_flatten re fuel ((c :: r).drop n)
      (by simp only [List.length_drop, List.length_cons] at h ⊢; omega)]
    exact List.take_append_drop n (c :: r)

theorem FindAllString_flatten (re : Regexp) (text : Str) :
    (FindAllString re text).flatten = text :=
  findAllFrom_flatten re text.length text le_rfl

theorem mergePass_flatten (p0 p1 : Str) :
    ∀ chars : List Str, (mergePass p0 p1 chars).flatten = chars.flatten
  | [] => by simp [mergePass]
  | [a] => by simp [mergePass]
  | a :: b :: rest => by
    rw [mergePass]
    split
    · rename_i h
      obtain ⟨ha, hb⟩ := h
      subst ha hb
      simp [mergePass_flatten _ _ rest]
    · simp [mergePass_flatten _ _ (b :: rest)]

theorem bpeLoop_flatten (ranks : GoMap Str Int) (r : List Str) :
    ∀ (fuel : Nat) (chars pairs : List Str),
      bpeLoop ranks fuel chars pairs = some r → r.flatten = chars.flatten
  | 0, _, _, h => by simp [bpeLoop] at h
  | fuel + 1, chars, pairs, h => by
    rw [bpeLoop] at h
    split at h
    · simp only [Option.some.injEq] at h; rw [h]
    · simp only at h
      split at h
      · simp only [Option.some.injEq] at h; rw [h]
      · split at h
        · simp only [Option.some.injEq] at h
          rw [← h, mergePass_flatten]
        · rw [bpeLoop_flatten ranks r fuel _ _ h, mergePass_flatten]

theorem explode_flatten (token : Str) : (explode token).flatten = token := by
  induction token with
  | nil => rfl
  | cons c r ih => simp only [explode, List.map_cons, List.flatten_cons] at ih ⊢; rw [ih]; rfl

/-- The symbols `bpe` returns, put together, are the chunk, provided a
special token's id is decoded to that token. -/
theorem bpe_flatten (t : Tokenizer2) (fuel : Nat) (chunk : Str) (syms : List Str)
    (hspecial : ∀ s id, t.specialTokens.get s = some id → t.decoder.get id = some s)
    (h : t.bpe fuel chunk = some syms) : syms.flatten = chunk := by
  unfold Tokenizer2.bpe at h
  split at h
  · rename_i id hid
    rw [hspecial chunk id hid] at h
    simp only [Option.getD_some, Option.some.injEq] at h
    rw [← h]; simp
  · by_cases hc : (explode chunk).length = 1
    · simp only [hc, if_true, Option.some.injEq] at h
      rw [← h]; exact explode_flatten chunk
    · simp only [hc, if_false] at h
      rw [bpeLoop_flatten _ syms fuel _ _ h]; exact explode_flatten chunk

theorem encodeSubTokens_ok (encoder : GoMap Str Int) :
    ∀ (syms : List Str) (acc out : List Int), encodeSubTokens encoder syms acc = .ok out →
      ∃ ids, out = acc ++ ids ∧ ids.map some = syms.map encoder.get := by
  intro syms acc out h
  rcases encodeSubTokens_cases encoder syms acc with ⟨ids, h1, h2⟩ | ⟨u, _, _, h2⟩
  · rw [h1] at h
    exact ⟨ids, by simpa using h.symm, h2⟩
  · rw [h2] at h; simp at h

theorem encodeChunks_ok (t : Tokenizer2) (fuel : Nat) :
    ∀ (chunks : List Str) (acc out : List Int),
      encodeChunks t fuel chunks acc = some (out, none) →
      ∃ (symss : List (List Str)) (ids : List Int),
        chunks.map (t.bpe fuel) = symss.map some ∧ out = acc ++ ids ∧
        ids.map some = symss.flatten.map t.encoder.get
  | [], acc, out, h => by
    simp only [encodeChunks, Option.some.injEq, Prod.mk.injEq, and_true] at h
    exact ⟨[], [], rfl, by simp [h], rfl⟩
  | chunk :: rest, acc, out, h => by
    rw [encodeChunks] at h
    cases hb : t.bpe fuel chunk with
    | none => rw [hb] at h; simp at h
    | some syms =>
      rw [hb] at h
      simp only at h
      cases hs : encodeSubTokens t.encoder syms acc with
      | error u => rw [hs] at h; simp at h
      | ok mid =>
        rw [hs] at h
        simp only at h
        obtain ⟨ids, hmid, hids⟩ := encodeSubTokens_ok _ _ _ _ hs
        obtain ⟨symss, ids', h1, h2, h3⟩ := encodeChunks_ok t fuel rest mid out h
        refine ⟨syms :: symss, ids ++ ids', by simp [hb, h1], by rw [h2, hmid]; simp, ?_⟩
        simp [hids, h3]

theorem decodeWords_of_inverse (t : Tokenizer2)
    (hinv : ∀ s id, t.encoder.get s = some id → t.decoder.get id = some s) :
    ∀ (ids : List Int) (syms acc : List Str), ids.map some = syms.map t.encoder.get →
      decodeWords t.decoder ids acc = .ok (acc ++ syms)
  | [], syms, acc, h => by
    cases syms with
    | nil => simp [decodeWords]
    | cons _ _ => simp at h
  | id :: ids, syms, acc, h => by
    cases syms with
    | nil => simp at h
    | cons s syms =>
      simp only [List.map_cons, List.cons.injEq] at h
      rw [decodeWords, hinv s id h.1.symm]
      simp only
      rw [decodeWords_of_inverse t hinv ids syms _ h.2]
      simp

theorem flatten_of_map_bpe (t : Tokenizer2) (fuel : Nat)
    (hspecial : ∀ s id, t.specialTokens.get s = some id → t.decoder.get id = some s) :
    ∀ (chunks : List Str) (symss : List (List Str)),
      chunks.map (t.bpe fuel) = symss.map some → symss.flatten.flatten = chunks.flatten
  | [], symss, h => by
    cases symss with
    | nil => rfl
    | cons _ _ => simp at h
  | chunk :: rest, symss, h => by
    cases symss with
    | nil => simp at h
    | cons syms symss =>
      simp only [List.map_cons, List.cons.injEq] at h
      simp only [List.flatten_cons, List.flatten_append]
      rw [bpe_flatten t fuel chunk syms hspecial h.1,
        flatten_of_map_bpe t fuel hspecial rest symss h.2]

theorem ReplaceAll_of_not_mem (s : Str) (old new : Char) (h : old ∉ s) :
    ReplaceAll s old new = s := by
  unfold ReplaceAll
  conv_rhs => rw [← List.map_id s]
  apply List.map_congr_left
  intro c hc
  have : c ≠ old := fun e => h (e ▸ hc)
  simp [this]

theorem dropWhile_of_head (p : Char → Bool) (s : Str)
    (h : ∀ c, s.head? = some c → p c = false) : s.dropWhile p = s := by
  cases s with
  | nil => rfl
  | cons a r => simp [List.dropWhile_cons, h a rfl]

theorem TrimSpace_of_trimmed (s : Str) (hh : ∀ c, s.head? = some c → isSpace c = false)
    (hl : ∀ c, s.getLast? = some c → isSpace c = false) : TrimSpace s = s := by
  unfold TrimSpace
  rw [dropWhile_of_head _ s hh, dropWhile_of_head _ s.reverse
    (fun c hc => hl c (by rw [← List.head?_reverse]; exact hc)), List.reverse_reverse]

theorem GoMap.mem_of_get {κ ν : Type} [BEq κ] [LawfulBEq κ] :
    ∀ (m : GoMap κ ν) (k : κ) (v : ν), m.get k = some v → (k, v) ∈ m
  | [], k, v, h => by simp [GoMap.get] at h
  | (k', v') :: m, k, v, h => by
    unfold GoMap.get at h
    rw [List.lookup_cons] at h
    cases hk : (k == k') with
    | true =>
      rw [hk] at h
      simp only [Option.some.injEq] at h
      have hk' : k = k' := by simpa using hk
      subst hk' h
      exact List.mem_cons_self _ _
    | false =>
      rw [hk] at h
      exact List.mem_cons_of_mem _ (GoMap.mem_of_get m k v h)

/-- C10, as stated, fails: `spaceTokenizer` has a `decoder` that inverts
its `encoder`, and the texts ` `, `Ġ` and ` a` are encoded without error,
yet decoding returns the empty text for the first two and `a` for the
third. -/
theorem bpe_round_trip_counterexample :
    spaceTokenizer.encoder.map (fun e => spaceTokenizer.decoder.get e.2)
      = spaceTokenizer.encoder.map (fun e => some e.1) ∧
    spaceTokenizer.Encode 1 [' '] = some ([0], none) ∧
    spaceTokenizer.Decode [0] = ([], none) ∧
    spaceTokenizer.Encode 1 ['Ġ'] = some ([1], none) ∧
    spaceTokenizer.Decode [1] = ([], none) ∧
    spaceTokenizer.Encode 1 [' ', 'a'] = some ([0, 2], none) ∧
    spaceTokenizer.Decode [0, 2] = (['a'], none) := by
  decide

/-- C10, amended: when `decoder` maps every id of `encoder` back to its
string and every special token's id back to that token, and `Encode`
returns ids for a text without error, `Decode` of these ids returns, without
error, the text with every `Ġ` replaced by a space and the white space at
both ends removed; this is the text itself when it contains no `Ġ` and
neither starts nor ends with white space. -/
theorem bpe_round_trip (t : Tokenizer2) (fuel : Nat) (text : Str) (ids : List Int)
    (hinv : ∀ s id, t.encoder.get s = some id → t.decoder.get id = some s)
    (hspecial : ∀ s id, t.specialTokens.get s = some id → t.decoder.get id = some s)
    (henc : t.Encode fuel text = some (ids, none)) :
    t.Decode ids = (TrimSpace (ReplaceAll text 'Ġ' ' '), none) ∧
    ('Ġ' ∉ text → (∀ c, text.head? = some c → isSpace c = false) →
      (∀ c, text.getLast? = some c → isSpace c = false) → t.Decode ids = (text, none)) := by
  unfold Tokenizer2.Encode at henc
  obtain ⟨symss, ids', hb, hids, hmap⟩ := encodeChunks_ok t fuel _ [] ids henc
  rw [List.nil_append] at hids
  subst hids
  have hflat : symss.flatten.flatten = text := by
    rw [flatten_of_map_bpe t fuel hspecial _ symss hb, FindAllString_flatten]
  have hdec : t.Decode ids = (TrimSpace (ReplaceAll text 'Ġ' ' '), none) := by
    unfold Tokenizer2.Decode
    rw [decodeWords_of_inverse t hinv ids symss.flatten [] hmap]
    simp only [List.nil_append, hflat]
  refine ⟨hdec, fun hno hh hl => ?_⟩
  rw [hdec, ReplaceAll_of_not_mem text _ _ hno, TrimSpace_of_trimmed text hh hl]

theorem bpe_round_trip_witness :
    spaceTokenizer.Encode 1 ['a', ' ', 'a'] = some ([2, 0, 2], none) ∧
    spaceTokenizer.Decode [2, 0, 2] = (TrimSpace (ReplaceAll ['a', ' ', 'a'] 'Ġ' ' '), none) ∧
    ('Ġ' ∉ ['a', ' ', 'a'] → (∀ c, ['a', ' ', 'a'].head? = some c → isSpace c = false) →
      (∀ c, ['a', ' ', 'a'].getLast? = some c → isSpace c = false) →
      spaceTokenizer.Decode [2, 0, 2] = (['a', ' ', 'a'], none)) :=
  ⟨by decide, bpe_round_trip spaceTokenizer 1 ['a', ' ', 'a'] [2, 0, 2]
    (fun s id h => by
      have hm := GoMap.mem_of_get _ s id h
      simp only [spaceTokenizer, List.mem_cons, Prod.mk.injEq, List.mem_singleton,
        List.not_mem_nil, or_false] at hm
      rcases hm with ⟨rfl, rfl⟩ | ⟨rfl, rfl⟩ | ⟨rfl, rfl⟩ <;> decide)
    (fun s id h => by simp [spaceTokenizer, GoMap.get] at h)
    (by decide)⟩

/-! ## Further properties of the greedy tokenizer -/

theorem encodeIds_length (t : Tokenizer) :
    ∀ n (text : GoString), text.length ≤ n → (encodeIds t text).length ≤ text.length
  | _, [], _ => by rw [encodeIds_nil]; simp
  | 0, _ :: _, h => by simp at h
  | n + 1, b :: bs, h => by
    obtain ⟨k, id, hk1, hkl, hstep, _⟩ := encodeIds_step t (b :: bs) (by simp)
    have hd : ((b :: bs).drop k).length ≤ n := by
      simp only [List.length_drop, List.length_cons] at h hkl ⊢; omega
    have ih := encodeIds_length t n _ hd
    rw [hstep]
    simp only [List.length_drop, List.length_cons] at ih hkl ⊢
    omega

theorem encodeIds_empty_vocab :
    ∀ text : GoString, encodeIds (newTokenizer []) text = List.replicate text.length GPT2_EOT
  | [] => by rw [encodeIds_nil]; rfl
  | b :: bs => by
    rw [encodeIds_fallback (newTokenizer []) (b :: bs) (by simp) (fun j _ _ => rfl)]
    simp only [List.drop_succ_cons, List.drop_zero, List.length_cons, List.replicate_succ]
    rw [encodeIds_empty_vocab bs]

/-- C11: `Tokenizer.Encode` returns for every tokenizer and every text, with
a nil error; a non-empty text gives a first id that stands for at least one
byte, the other ids being those of the text after these bytes; so there are
at most as many ids as bytes, and at least one for a non-empty text.  With
the empty vocabulary every byte gives the id 50256. -/
theorem Encode_total (t : Tokenizer) (text : GoString) :
    (∃ ids, t.Encode text = some (ids, none) ∧ ids.length ≤ text.length ∧
      (text ≠ [] → 1 ≤ ids.length) ∧
      (text ≠ [] → ∃ (k : Nat) (id : Int) (rest : List Int), 1 ≤ k ∧ k ≤ text.length ∧
        ids = id :: rest ∧ t.Encode (text.drop k) = some (rest, none))) ∧
    (newTokenizer []).Encode text = some (List.replicate text.length GPT2_EOT, none) := by
  refine ⟨⟨encodeIds t text, Encode_eq t text, encodeIds_length t _ text le_rfl, ?_, ?_⟩, ?_⟩
  · intro hne
    obtain ⟨k, id, _, _, hstep, _⟩ := encodeIds_step t text hne
    rw [hstep]; simp
  · intro hne
    obtain ⟨k, id, hk1, hkl, hstep, _⟩ := encodeIds_step t text hne
    exact ⟨k, id, _, hk1, hkl, hstep, Encode_eq t _⟩
  · rw [Encode_eq, encodeIds_empty_vocab]

theorem Encode_total_witness :
    (∃ ids, (newTokenizer [[97, 98]]).Encode [97, 98, 99] = some (ids, none) ∧
      ids.length ≤ ([97, 98, 99] : GoString).length ∧
      (([97, 98, 99] : GoString) ≠ [] → 1 ≤ ids.length) ∧
      (([97, 98, 99] : GoString) ≠ [] →
        ∃ (k : Nat) (id : Int) (rest : List Int), 1 ≤ k ∧
          k ≤ ([97, 98, 99] : GoString).length ∧ ids = id :: rest ∧
          (newTokenizer [[97, 98]]).Encode (([97, 98, 99] : GoString).drop k)
            = some (rest, none))) ∧
    (newTokenizer []).Encode [97, 98, 99]
      = some (List.replicate ([97, 98, 99] : GoString).length GPT2_EOT, none) :=
  Encode_total (newTokenizer [[97, 98]]) [97, 98, 99]

theorem fillTokenMap_isSome_of (s : GoString) :
    ∀ (vocab : List GoString) (i : Nat) (m : GoMap GoString Int),
      (m.get s).isSome → ((fillTokenMap vocab i m).get s).isSome
  | [], _, _, h => h
  | token :: rest, i, m, h => by
    rw [fillTokenMap]
    apply fillTokenMap_isSome_of s rest
    rw [GoMap.get_set]
    split
    · rfl
    · exact h

theorem fillTokenMap_isSome (s : GoString) :
    ∀ (vocab : List GoString) (i : Nat) (m : GoMap GoString Int),
      s ∈ vocab → ((fillTokenMap vocab i m).get s).isSome
  | [], _, _, h => by simp at h
  | token :: rest, i, m, h => by
    rw [fillTokenMap]
    by_cases hr : s ∈ rest
    · exact fillTokenMap_isSome s rest _ _ hr
    · have hs : s = token := by
        rcases List.mem_cons.mp h with h | h
        · exact h
        · exact absurd h hr
      apply fillTokenMap_isSome_of s rest
      rw [GoMap.get_set, if_pos hs]; rfl

/-- The keys of the map of `newTokenizer vocab` are the strings of `vocab`. -/
theorem newTokenizer_keys (vocab : List GoString) (s : GoString) :
    ((newTokenizer vocab).tokenMap.get s).isSome ↔ s ∈ vocab := by
  constructor
  · intro h
    obtain ⟨id, hid⟩ := Option.isSome_iff_exists.mp h
    rcases fillTokenMap_get s id vocab 0 [] hid with ⟨j, hj, _⟩ | ⟨_, hget⟩
    · exact List.get?_mem hj
    · simp [GoMap.get] at hget
  · exact fillTokenMap_isSome s vocab 0 []

/-- C12: for a vocabulary whose indices fit an `int32`, the keys of the
`tokenMap` of `newTokenizer vocab` are exactly the strings occurring in
`vocab`; the id of a key is an index of the table at which the table holds
that key; and no later index holds it. -/
theorem newTokenizer_invariant (vocab : List GoString) (hlen : vocab.length < 2147483648) :
    (∀ s, ((newTokenizer vocab).tokenMap.get s).isSome ↔ s ∈ vocab) ∧
    (∀ s id, (newTokenizer vocab).tokenMap.get s = some id →
      0 ≤ id ∧ id < (vocab.length : Int) ∧
        (newTokenizer vocab).tokenTable.get? id.toNat = some s) ∧
    (∀ s id, (newTokenizer vocab).tokenMap.get s = some id →
      ∀ k, vocab.get? k = some s → (k : Int) ≤ id) := by
  refine ⟨newTokenizer_keys vocab, fun s id h => ?_, fun s id h k hk => ?_⟩
  · obtain ⟨h0, h1, h2, _⟩ := newTokenizer_get vocab hlen s id h
    exact ⟨h0, h1, h2⟩
  · obtain ⟨h0, _, _, h3⟩ := newTokenizer_get vocab hlen s id h
    by_contra hlt
    exact h3 k (by omega) hk

theorem newTokenizer_invariant_witness :
    ([[97], [98], [97]] : List GoString).length < 2147483648 ∧
    (∀ s, ((newTokenizer [[97], [98], [97]]).tokenMap.get s).isSome ↔
      s ∈ ([[97], [98], [97]] : List GoString)) ∧
    (∀ s id, (newTokenizer [[97], [98], [97]]).tokenMap.get s = some id →
      0 ≤ id ∧ id < (([[97], [98], [97]] : List GoString).length : Int) ∧
        (newTokenizer [[97], [98], [97]]).tokenTable.get? id.toNat = some s) ∧
    (∀ s id, (newTokenizer [[97], [98], [97]]).tokenMap.get s = some id →
      ∀ k, ([[97], [98], [97]] : List GoString).get? k = some s → (k : Int) ≤ id) :=
  ⟨by decide, newTokenizer_invariant [[97], [98], [97]] (by decide)⟩

theorem encodeIds_range (vocab : List GoString) (hlen : vocab.length < 2147483648) :
    ∀ n (text : GoString), text.length ≤ n →
      GPT2_EOT ∉ encodeIds (newTokenizer vocab) text →
      ∀ id ∈ encodeIds (newTokenizer vocab) text, 0 ≤ id ∧ id < (vocab.length : Int)
  | _, [], _, _, id, hid => by rw [encodeIds_nil] at hid; simp at hid
  | 0, _ :: _, h, _, _, _ => by simp at h
  | n + 1, b :: bs, h, hno, id, hid => by
    obtain ⟨k, id0, hk1, hkl, hstep, hcase⟩ :=
      encodeIds_step (newTokenizer vocab) (b :: bs) (by simp)
    have hd : ((b :: bs).drop k).length ≤ n := by
      simp only [List.length_drop, List.length_cons] at h hkl ⊢; omega
    rw [hstep] at hno hid
    rcases List.mem_cons.mp hid with hid | hid
    · subst hid
      rcases hcase with ⟨he, _⟩ | ⟨hget, _⟩
      · exact absurd (by rw [he]; exact List.mem_cons_self _ _) hno
      · obtain ⟨h0, h1, _⟩ := newTokenizer_get vocab hlen _ id hget
        exact ⟨h0, h1⟩
    · exact encodeIds_range vocab hlen n _ hd (fun hm => hno (List.mem_cons_of_mem _ hm)) id hid

/-- C19: for a vocabulary whose indices fit an `int32`, `Encode` returns
ids, and when 50256 is not among them, every id is at least 0 and below the
length of the vocabulary, and `Decode` returns exactly the text, with a nil
error. -/
theorem greedy_round_trip_conditional (vocab : List GoString)
    (hlen : vocab.length < 2147483648) (text : GoString) :
    ∃ ids, (newTokenizer vocab).Encode text = some (ids, none) ∧
      (GPT2_EOT ∉ ids →
        (∀ id ∈ ids, 0 ≤ id ∧ id < (vocab.length : Int)) ∧
        (newTokenizer vocab).Decode ids = .returned (text, none)) := by
  refine ⟨encodeIds (newTokenizer vocab) text, Encode_eq _ _, fun hno => ⟨?_, ?_⟩⟩
  · exact encodeIds_range vocab hlen text.length text le_rfl hno
  · simpa [Tokenizer.Decode] using
      (decodeLoop_encodeIds vocab hlen text.length text le_rfl []).1 hno

theorem greedy_round_trip_conditional_witness :
    ([[97], [97, 98]] : List GoString).length < 2147483648 ∧
    ∃ ids, (newTokenizer [[97], [97, 98]]).Encode [97, 98, 97] = some (ids, none) ∧
      (GPT2_EOT ∉ ids →
        (∀ id ∈ ids, 0 ≤ id ∧ id < (([[97], [97, 98]] : List GoString).length : Int)) ∧
        (newTokenizer [[97], [97, 98]]).Decode ids = .returned ([97, 98, 97], none)) :=
  ⟨by decide, greedy_round_trip_conditional [[97], [97, 98]] (by decide) [97, 98, 97]⟩

/-! ## Properties of the loaders -/

theorem GoMap.get_of_mem {κ ν : Type} [BEq κ] [LawfulBEq κ] :
    ∀ (m : GoMap κ ν) (k : κ) (v : ν), (m.map Prod.fst).Nodup → (k, v) ∈ m →
      m.get k = some v
  | [], _, _, _, h => by simp at h
  | (k', v') :: m, k, v, hnd, h => by
    simp only [List.map_cons, List.nodup_cons] at hnd
    unfold GoMap.get
    rw [List.lookup_cons]
    rcases List.mem_cons.mp h with h1 | h2
    · simp only [Prod.mk.injEq] at h1
      obtain ⟨rfl, rfl⟩ := h1
      simp
    · have hk : k ∈ m.map Prod.fst := List.mem_map_of_mem Prod.fst h2
      have hne : (k == k') = false := by
        apply beq_false_of_ne
        intro e
        rw [e] at hk
        exact hnd.1 hk
      rw [hne]
      exact GoMap.get_of_mem m k v hnd.2 h2

theorem buildDecoder_get (id : Int) (s : Str) :
    ∀ (l : List (Str × Int)) (d : GoMap Int Str), (buildDecoder l d).get id = some s →
      (s, id) ∈ l ∨ d.get id = some s
  | [], _, h => Or.inr h
  | (token, id') :: rest, d, h => by
    rw [buildDecoder] at h
    rcases buildDecoder_get id s rest _ h with h | h
    · exact Or.inl (List.mem_cons_of_mem _ h)
    · rw [GoMap.get_set] at h
      by_cases he : id = id'
      · rw [if_pos he] at h
        simp only [Option.some.injEq] at h
        rw [he, ← h]
        exact Or.inl (List.mem_cons_self _ _)
      · rw [if_neg he] at h
        exact Or.inr h

theorem buildDecoder_isSome_of (id : Int) :
    ∀ (l : List (Str × Int)) (d : GoMap Int Str), (d.get id).isSome →
      ((buildDecoder l d).get id).isSome
  | [], _, h => h
  | (token, id') :: rest, d, h => by
    rw [buildDecoder]
    apply buildDecoder_isSome_of id rest
    rw [GoMap.get_set]
    split
    · rfl
    · exact h

theorem buildDecoder_isSome (id : Int) (s : Str) :
    ∀ (l : List (Str × Int)) (d : GoMap Int Str), (s, id) ∈ l →
      ((buildDecoder l d).get id).isSome
  | [], _, h => by simp at h
  | (token, id') :: rest, d, h => by
    rw [buildDecoder]
    rcases List.mem_cons.mp h with h | h
    · simp only [Prod.mk.injEq] at h
      obtain ⟨rfl, rfl⟩ := h
      apply buildDecoder_isSome_of id rest
      rw [GoMap.get_set, if_pos rfl]; rfl
    · exact buildDecoder_isSome id s rest _ h

/-- C13: for an `encoder` map (an entry list with pairwise distinct keys,
visited in any order), `NewTokenizer2` succeeds with that `encoder` and a
`decoder` whose keys are exactly the ids `encoder` maps some string to;
every entry of `decoder` for an id is a string that `encoder` maps to that
id; and when `encoder` maps no two strings to one id, `decoder` maps the id
of every string back to it. -/
theorem NewTokenizer2_decoder (re : Regexp) (json : Tokenizer2JSON)
    (hkeys : (json.Encoder.map Prod.fst).Nodup) :
    ∃ t, NewTokenizer2 re (.parsed json) = (some t, none) ∧ t.encoder = json.Encoder ∧
      (∀ id, (t.decoder.get id).isSome ↔ ∃ s, t.encoder.get s = some id) ∧
      (∀ id s, t.decoder.get id = some s → t.encoder.get s = some id) ∧
      ((∀ s₁ s₂ id, t.encoder.get s₁ = some id → t.encoder.get s₂ = some id → s₁ = s₂) →
        ∀ s id, t.encoder.get s = some id → t.decoder.get id = some s) := by
  have hentry : ∀ id s, (buildDecoder json.Encoder []).get id = some s →
      json.Encoder.get s = some id := by
    intro id s h
    rcases buildDecoder_get id s json.Encoder [] h with h | h
    · exact GoMap.get_of_mem _ s id hkeys h
    · simp [GoMap.get] at h
  refine ⟨_, rfl, rfl, fun id => ⟨fun h => ?_, fun ⟨s, hs⟩ => ?_⟩, hentry, fun hinj s id hs => ?_⟩
  · obtain ⟨s, hs⟩ := Option.isSome_iff_exists.mp h
    exact ⟨s, hentry id s hs⟩
  · exact buildDecoder_isSome id s _ _ (GoMap.mem_of_get _ s id hs)
  · obtain ⟨s', hs'⟩ := Option.isSome_iff_exists.mp
      (buildDecoder_isSome id s json.Encoder [] (GoMap.mem_of_get _ s id hs))
    have := hinj s' s id (hentry id s' hs') hs
    subst this
    exact hs'

theorem NewTokenizer2_decoder_witness :
    ((Tokenizer2JSON.mk [(['a'], 0), (['b'], 1), (['c'], 1)] [] []).Encoder.map Prod.fst).Nodup ∧
    ∃ t, NewTokenizer2 asciiRegexp
        (.parsed (Tokenizer2JSON.mk [(['a'], 0), (['b'], 1), (['c'], 1)] [] []))
          = (some t, none) ∧
      t.encoder = (Tokenizer2JSON.mk [(['a'], 0), (['b'], 1), (['c'], 1)] [] []).Encoder ∧
      (∀ id, (t.decoder.get id).isSome ↔ ∃ s, t.encoder.get s = some id) ∧
      (∀ id s, t.decoder.get id = some s → t.encoder.get s = some id) ∧
      ((∀ s₁ s₂ id, t.encoder.get s₁ = some id → t.encoder.get s₂ = some id → s₁ = s₂) →
        ∀ s id, t.encoder.get s = some id → t.decoder.get id = some s) :=
  ⟨by decide, NewTokenizer2_decoder asciiRegexp
    (Tokenizer2JSON.mk [(['a'], 0), (['b'], 1), (['c'], 1)] [] []) (by decide)⟩

theorem set_length_append_cons {α : Type} (x y : α) (post : List α) :
    ∀ pre : List α, (pre ++ x :: post).set pre.length y = pre ++ y :: post
  | [] => rfl
  | a :: pre => by
    simp only [List.cons_append, List.length_cons, List.set_cons_succ]
    rw [set_length_append_cons x y post pre]

/-- The fields after `assignAll`: the map is the one `fillTokenMap` builds,
and the table holds the tokens at the indices from `i` on. -/
theorem assignAll_fields :
    ∀ (tokens : List GoString) (i : Nat) (tok : Tokenizer) (pre mid post : List GoString),
      tok.tokenTable = pre ++ mid ++ post → pre.length = i → mid.length = tokens.length →
      assignAll tokens i tok =
        { vocabSize := tok.vocabSize
          tokenTable := pre ++ tokens ++ post
          tokenMap := fillTokenMap tokens i tok.tokenMap
          init := tok.init }
  | [], i, tok, pre, mid, post, ht, _, hm => by
    have : mid = [] := List.length_eq_zero.mp hm
    subst this
    rw [assignAll, fillTokenMap, ← ht]
  | token :: rest, i, tok, pre, mid, post, ht, hp, hm => by
    cases mid with
    | nil => simp at hm
    | cons m0 mid =>
      rw [assignAll]
      have hset : (assignToken tok i token).tokenTable = (pre ++ [token]) ++ mid ++ post := by
        simp only [assignToken, ht, List.append_assoc, List.cons_append, List.nil_append]
        rw [← hp]
        exact set_length_append_cons m0 token (mid ++ post) pre
      rw [assignAll_fields rest (i + 1) (assignToken tok i token) (pre ++ [token]) mid post hset
        (by simp [hp]) (by simpa using hm)]
      simp [assignToken, fillTokenMap]

theorem loadRecords_good :
    ∀ (good : List GoString) (n i : Nat) (rest : List Nat) (tok : Tokenizer),
      (∀ p ∈ good, 0 < p.length) →
      loadRecords (good.length + n) i (recordBytes good ++ rest) tok
        = loadRecords n (i + good.length) rest (assignAll good i tok)
  | [], n, i, rest, tok, _ => by simp [recordBytes, assignAll]
  | p :: good, n, i, rest, tok, hp => by
    have hpos : 0 < p.length := hp p (by simp)
    have hn : (p :: good).length + n = (good.length + n) + 1 := by
      simp only [List.length_cons]; omega
    have hb : recordBytes (p :: good) ++ rest = p.length :: (p ++ (recordBytes good ++ rest)) := by
      simp [recordBytes]
    rw [hn, hb, loadRecords]
    have h1 : ¬ p.length ≤ 0 := by omega
    have h2 : ¬ (p ++ (recordBytes good ++ rest)).length < p.length := by
      simp only [List.length_append]; omega
    rw [if_neg h1, if_neg h2, List.take_left, List.drop_left,
      loadRecords_good good n (i + 1) rest _ (fun q hq => hp q (by simp [hq])), assignAll]
    congr 1
    simp only [List.length_cons]; omega

theorem NewTokenizer_header (header body : List Nat) (hh : header.length = 1024)
    (h0 : headerWord header 0 = 20240328) (h1 : headerWord header 1 = 1) :
    NewTokenizer (some (header ++ body)) =
      loadRecords (headerWord header 2) 0 body
        { vocabSize := headerWord header 2
          tokenTable := List.replicate (headerWord header 2) []
          tokenMap := []
          init := true } := by
  unfold NewTokenizer
  have hlen : ¬ (header ++ body).length < 1024 := by
    simp only [List.length_append]; omega
  simp only [hlen, if_false, List.take_left' hh, List.drop_left' hh, h0, h1, ne_eq,
    not_true_eq_false, or_self]

/-- C14: `NewTokenizer` returns an error, not a tokenizer with a nil error,
on a content shorter than the 1024 header bytes, on a header whose first
word is not 20240328 or whose second word is not 1 (the error is then
`incorrect header`), and on a well-formed header followed by fewer good
records than the header announces and then by the end of the content, by a
length byte 0, or by a length byte with fewer bytes behind it. -/
theorem NewTokenizer_rejects :
    (∀ content : List Nat, content.length < 1024 →
      NewTokenizer (some content) = (Tokenizer.zero, some GoError.readError)) ∧
    (∀ content : List Nat, 1024 ≤ content.length →
      headerWord (content.take 1024) 0 ≠ 20240328 ∨ headerWord (content.take 1024) 1 ≠ 1 →
      NewTokenizer (some content) = (Tokenizer.zero, some GoError.incorrectHeader)) ∧
    (∀ (header : List Nat) (good : List GoString) (bad : List Nat),
      header.length = 1024 → headerWord header 0 = 20240328 → headerWord header 1 = 1 →
      good.length < headerWord header 2 → (∀ p ∈ good, 0 < p.length) →
      (bad = [] →
        (NewTokenizer (some (header ++ (recordBytes good ++ bad)))).2
          = some GoError.readError) ∧
      (∀ x, bad = 0 :: x →
        (NewTokenizer (some (header ++ (recordBytes good ++ bad)))).2
          = some GoError.tokenizerFailure) ∧
      (∀ L x, bad = L :: x → 0 < L → x.length < L →
        (NewTokenizer (some (header ++ (recordBytes good ++ bad)))).2
          = some GoError.readError)) := by
  refine ⟨fun content h => ?_, fun content h hw => ?_, fun header good bad hh h0 h1 hV hp => ?_⟩
  · unfold NewTokenizer; simp only [h, if_true]
  · unfold NewTokenizer
    have : ¬ content.length < 1024 := by omega
    simp only [this, if_false, hw, if_true]
  · obtain ⟨n, hn⟩ : ∃ n, headerWord header 2 = good.length + (n + 1) :=
      ⟨headerWord header 2 - good.length - 1, by omega⟩
    rw [NewTokenizer_header header _ hh h0 h1, hn, loadRecords_good good (n + 1) 0 bad _ hp]
    refine ⟨fun hb => ?_, fun x hb => ?_, fun L x hb hL hx => ?_⟩
    · subst hb; rw [loadRecords]
    · subst hb; rw [loadRecords]; simp
    · subst hb; rw [loadRecords]
      have : ¬ L ≤ 0 := by omega
      simp [this, hx]

theorem NewTokenizer_rejects_witness :
    (([1, 2, 3] : List Nat).length < 1024 ∧
      NewTokenizer (some [1, 2, 3]) = (Tokenizer.zero, some GoError.readError)) ∧
    ((NewTokenizer (some (sampleHeader ++ (recordBytes [[97]] ++ [])))).2
        = some GoError.readError ∧
      (NewTokenizer (some (sampleHeader ++ (recordBytes [[97]] ++ [0, 5])))).2
        = some GoError.tokenizerFailure ∧
      (NewTokenizer (some (sampleHeader ++ (recordBytes [[97]] ++ [3, 98])))).2
        = some GoError.readError) :=
  have hh : sampleHeader.length = 1024 := by
    simp only [sampleHeader, List.length_append, List.length_replicate, List.length_cons,
      List.length_nil]
  have h0 : headerWord sampleHeader 0 = 20240328 := by rfl
  have h1 : headerWord sampleHeader 1 = 1 := by rfl
  have h2 : headerWord sampleHeader 2 = 2 := by rfl
  have hV : ([[97]] : List GoString).length < headerWord sampleHeader 2 := by
    rw [h2]; decide
  have hp : ∀ p ∈ ([[97]] : List GoString), 0 < p.length := by decide
  ⟨⟨by decide, NewTokenizer_rejects.1 [1, 2, 3] (by decide)⟩,
    (NewTokenizer_rejects.2.2 sampleHeader [[97]] [] hh h0 h1 hV hp).1 rfl,
    (NewTokenizer_rejects.2.2 sampleHeader [[97]] [0, 5] hh h0 h1 hV hp).2.1 [5] rfl,
    (NewTokenizer_rejects.2.2 sampleHeader [[97]] [3, 98] hh h0 h1 hV hp).2.2 3 [98] rfl
      (by decide) (by decide)⟩

theorem loadRecords_all (payloads : List GoString) (trailing : List Nat)
    (hp : ∀ p ∈ payloads, 0 < p.length) (V : Nat) :
    loadRecords payloads.length 0 (recordBytes payloads ++ trailing)
        { vocabSize := V
          tokenTable := List.replicate payloads.length []
          tokenMap := []
          init := true }
      = ({ vocabSize := V
           tokenTable := payloads
           tokenMap := fillTokenMap payloads 0 []
           init := true }, none) := by
  have h := loadRecords_good payloads 0 0 trailing
    { vocabSize := V, tokenTable := List.replicate payloads.length [], tokenMap := [],
      init := true } hp
  rw [Nat.add_zero] at h
  rw [h, loadRecords, assignAll_fields payloads 0 _ [] (List.replicate payloads.length []) []
    (by simp) rfl (by simp)]
  simp

/-- C15: on a content made of 1024 header bytes whose words 0, 1 and 2 are
20240328, 1 and `V`, then `V` records, each a length byte above 0 followed
by that many payload bytes, then any bytes, `NewTokenizer` succeeds with
`vocabSize` equal to `V` and the payloads, in file order, as `tokenTable`;
every payload is a key of `tokenMap`, and when `V` fits an `int32` the id
of a key is an index at which the table holds it, no later index holding
it. -/
theorem NewTokenizer_result (header : List Nat) (payloads : List GoString)
    (trailing : List Nat) (hh : header.length = 1024)
    (h0 : headerWord header 0 = 20240328) (h1 : headerWord header 1 = 1)
    (h2 : headerWord header 2 = payloads.length) (hp : ∀ p ∈ payloads, 0 < p.length) :
    ∃ tok, NewTokenizer (some (header ++ (recordBytes payloads ++ trailing))) = (tok, none) ∧
      tok.vocabSize = payloads.length ∧ tok.tokenTable = payloads ∧ tok.init = true ∧
      (∀ p ∈ payloads, (tok.tokenMap.get p).isSome) ∧
      (payloads.length < 2147483648 → ∀ p id, tok.tokenMap.get p = some id →
        0 ≤ id ∧ tok.tokenTable.get? id.toNat = some p ∧
          ∀ k, tok.tokenTable.get? k = some p → (k : Int) ≤ id) := by
  refine ⟨Tokenizer.mk payloads.length payloads (fillTokenMap payloads 0 []) true,
    ?_, rfl, rfl, rfl, fun p hpm => ?_, fun hlen p id hget => ?_⟩
  · rw [NewTokenizer_header header _ hh h0 h1, h2, loadRecords_all payloads trailing hp]
  · exact (newTokenizer_keys payloads p).mpr hpm
  · obtain ⟨ha, _, hb, hc⟩ := newTokenizer_get payloads hlen p id hget
    refine ⟨ha, hb, fun k hk => ?_⟩
    by_contra hlt
    exact hc k (by omega) hk

theorem NewTokenizer_result_witness :
    ∃ tok, NewTokenizer (some (sampleHeader ++ (recordBytes [[97, 98], [99]] ++ [7])))
        = (tok, none) ∧
      tok.vocabSize = ([[97, 98], [99]] : List GoString).length ∧
      tok.tokenTable = [[97, 98], [99]] ∧ tok.init = true ∧
      (∀ p ∈ ([[97, 98], [99]] : List GoString), (tok.tokenMap.get p).isSome) ∧
      (([[97, 98], [99]] : List GoString).length < 2147483648 →
        ∀ p id, tok.tokenMap.get p = some id →
          0 ≤ id ∧ tok.tokenTable.get? id.toNat = some p ∧
            ∀ k, tok.tokenTable.get? k = some p → (k : Int) ≤ id) :=
  NewTokenizer_result sampleHeader [[97, 98], [99]] [7]
    (by simp only [sampleHeader, List.length_append, List.length_replicate, List.length_cons,
      List.length_nil])
    (by rfl) (by rfl) (by rfl) (by decide)

theorem fillPairs_eq_assignAll :
    ∀ (l : List (GoString × Int)) (i : Nat) (tok : Tokenizer),
      fillPairs l i tok = assignAll (l.map Prod.fst) i tok
  | [], _, _ => rfl
  | pair :: rest, i, tok => by
    rw [fillPairs, List.map_cons, assignAll, fillPairs_eq_assignAll rest]

theorem sorted_lt_of_sorted_le_of_nodup (l : List (GoString × Int))
    (hs : l.Sorted (fun a b => a.2 ≤ b.2)) (hn : (l.map Prod.snd).Nodup) :
    l.Sorted (fun a b => a.2 < b.2) := by
  have hne : l.Pairwise (fun a b => a.2 ≠ b.2) := List.pairwise_map.mp hn
  exact List.Pairwise.imp₂ (fun a b h1 h2 => lt_of_le_of_ne h1 h2) hs hne

/-- Two orderings of the same entries by strictly ascending id are equal. -/
theorem sorted_lt_unique (l₁ l₂ : List (GoString × Int)) (hp : l₁.Perm l₂)
    (h₁ : l₁.Sorted (fun a b => a.2 < b.2)) (h₂ : l₂.Sorted (fun a b => a.2 < b.2)) :
    l₁ = l₂ := by
  haveI : IsAntisymm (GoString × Int) (fun a b => a.2 < b.2) :=
    ⟨fun a b h1 h2 => absurd h1 (not_lt.mpr (le_of_lt h2))⟩
  exact List.eq_of_perm_of_sorted hp h₁ h₂

theorem sortByID_contract (l : List (GoString × Int)) :
    (sortByID l).Perm l ∧ (sortByID l).Sorted (fun a b => a.2 ≤ b.2) := by
  haveI : IsTotal (GoString × Int) (fun a b => a.2 ≤ b.2) := ⟨fun a b => le_total a.2 b.2⟩
  haveI : IsTrans (GoString × Int) (fun a b => a.2 ≤ b.2) :=
    ⟨fun a b c h1 h2 => le_trans h1 h2⟩
  exact ⟨List.perm_insertionSort _ l, List.sorted_insertionSort _ l⟩

theorem remapToken_marker (rest : GoString) : remapToken (196 :: 160 :: rest) = 32 :: rest := by
  simp [remapToken]

theorem remapToken_other (key : GoString) (h : ∀ rest, key ≠ 196 :: 160 :: rest) :
    remapToken key = key := by
  unfold remapToken
  split
  · rename_i hc
    obtain ⟨hl, ha, hb⟩ := hc
    match key, hl, ha, hb with
    | a :: b :: rest, _, ha, hb =>
      simp only [List.getD_cons_zero, List.getD_cons_succ] at ha hb
      subst ha hb
      exact absurd rfl (h rest)
  · rfl

theorem ids_of_range (order : List (GoString × Int)) (n : Nat)
    (hs : order.Sorted (fun a b => a.2 < b.2))
    (hp : (order.map Prod.snd).Perm ((List.range n).map Int.ofNat)) :
    order.map Prod.snd = (List.range n).map Int.ofNat := by
  have h1 : (order.map Prod.snd).Sorted (· < ·) := List.pairwise_map.mpr hs
  have h2 : ((List.range n).map Int.ofNat).Sorted (· < ·) :=
    List.pairwise_map.mpr
      ((List.sorted_lt_range n).imp (fun h => Int.ofNat_lt.mpr h))
  exact List.eq_of_perm_of_sorted hp h1 h2

/-- C16: for a `vocab` map with pairwise distinct ids, whatever order the
map is visited in and whatever ordering by id `sort.Slice` produces,
`NewTokenizerJson` succeeds with the tokenizer `newTokenizer` builds from the
keys taken in strictly ascending order of their ids and rewritten by
`remapToken`: a key `0xC4 0xA0 rest` becomes a space followed by `rest`, any
other key stays as it is.  When the ids are exactly `0 .. n-1`, the table
holds at index `id` the rewritten key of every pair `(key, id)`. -/
theorem NewTokenizerJson_renumbering
    (sortSlice : List (GoString × Int) → List (GoString × Int))
    (hsort : ∀ l, (sortSlice l).Perm l ∧ (sortSlice l).Sorted (fun a b => a.2 ≤ b.2))
    (json : TokenizerJSON) (hids : (json.Model.Vocab.map Prod.snd).Nodup) :
    ∃ order : List (GoString × Int), order.Perm json.Model.Vocab ∧
      order.Sorted (fun a b => a.2 < b.2) ∧
      NewTokenizerJson sortSlice (.parsed json)
        = (newTokenizer (order.map (fun e => remapToken e.1)), none) ∧
      (∀ rest, remapToken (196 :: 160 :: rest) = 32 :: rest) ∧
      (∀ key, (∀ rest, key ≠ 196 :: 160 :: rest) → remapToken key = key) ∧
      (∀ n, (json.Model.Vocab.map Prod.snd).Perm ((List.range n).map Int.ofNat) →
        ∀ key id, (key, id) ∈ json.Model.Vocab →
          (newTokenizer (order.map (fun e => remapToken e.1))).tokenTable.get? id.toNat
            = some (remapToken key)) := by
  obtain ⟨horder_perm, horder_le⟩ := sortByID_contract json.Model.Vocab
  have horder : (sortByID json.Model.Vocab).Sorted (fun a b => a.2 < b.2) :=
    sorted_lt_of_sorted_le_of_nodup _ horder_le
      ((horder_perm.map Prod.snd).nodup_iff.mpr hids)
  refine ⟨sortByID json.Model.Vocab, horder_perm, horder, ?_, remapToken_marker,
    remapToken_other, ?_⟩
  · -- the pairs the loader sorts, and the unique strictly ascending ordering
    obtain ⟨hp, hs⟩ := hsort (json.Model.Vocab.map (fun e => (remapToken e.1, e.2)))
    have hsnd : ∀ l : List (GoString × Int),
        (l.map (fun e => (remapToken e.1, e.2))).map Prod.snd = l.map Prod.snd := by
      intro l; simp [List.map_map, Function.comp_def]
    have hs' : (sortSlice (json.Model.Vocab.map (fun e => (remapToken e.1, e.2)))).Sorted
        (fun a b => a.2 < b.2) :=
      sorted_lt_of_sorted_le_of_nodup _ hs
        ((hp.map Prod.snd).nodup_iff.mpr (by rw [hsnd]; exact hids))
    have hmapped : ((sortByID json.Model.Vocab).map (fun e => (remapToken e.1, e.2))).Sorted
        (fun a b => a.2 < b.2) := List.pairwise_map.mpr horder
    have heq : sortSlice (json.Model.Vocab.map (fun e => (remapToken e.1, e.2)))
        = (sortByID json.Model.Vocab).map (fun e => (remapToken e.1, e.2)) :=
      sorted_lt_unique _ _ (hp.trans (horder_perm.map _).symm) hs' hmapped
    have hlen : (sortByID json.Model.Vocab).length = json.Model.Vocab.length :=
      horder_perm.length_eq
    unfold NewTokenizerJson
    simp only
    rw [heq, fillPairs_eq_assignAll,
      assignAll_fields _ 0 _ [] (List.replicate json.Model.Vocab.length []) []
        (by simp) rfl (by simp [hlen])]
    simp [newTokenizer, List.map_map, Function.comp_def, hlen]
  · intro n hn key id hmem
    have hids_eq := ids_of_range _ n horder ((horder_perm.map Prod.snd).trans hn)
    have hmem' : (key, id) ∈ sortByID json.Model.Vocab := horder_perm.mem_iff.mpr hmem
    obtain ⟨j, hj⟩ := List.getElem?_of_mem hmem'
    have hjid : ((sortByID json.Model.Vocab).map Prod.snd)[j]? = some id := by
      rw [List.getElem?_map, hj]; rfl
    rw [hids_eq, List.getElem?_map] at hjid
    have hjn : j < n := by
      by_contra hge
      rw [List.getElem?_eq_none (by simp; omega)] at hjid
      simp at hjid
    rw [List.getElem?_range hjn] at hjid
    simp only [Option.map_some', Option.some.injEq] at hjid
    subst hjid
    show (List.map (fun e => remapToken e.1) (sortByID json.Model.Vocab)).get? _ = _
    rw [List.get?_eq_getElem?, List.getElem?_map]
    simp [hj]

theorem NewTokenizerJson_renumbering_witness :
    (((TokenizerJSON.mk [] ⟨[], [([196, 160, 97], 1), ([98], 0)], [], []⟩).Model.Vocab.map
        Prod.snd).Nodup) ∧
    ∃ order : List (GoString × Int),
      order.Perm (TokenizerJSON.mk [] ⟨[], [([196, 160, 97], 1), ([98], 0)], [], []⟩).Model.Vocab ∧
      order.Sorted (fun a b => a.2 < b.2) ∧
      NewTokenizerJson sortByID
          (.parsed (TokenizerJSON.mk [] ⟨[], [([196, 160, 97], 1), ([98], 0)], [], []⟩))
        = (newTokenizer (order.map (fun e => remapToken e.1)), none) ∧
      (∀ rest, remapToken (196 :: 160 :: rest) = 32 :: rest) ∧
      (∀ key, (∀ rest, key ≠ 196 :: 160 :: rest) → remapToken key = key) ∧
      (∀ n, ((TokenizerJSON.mk [] ⟨[], [([196, 160, 97], 1), ([98], 0)], [], []⟩).Model.Vocab.map
            Prod.snd).Perm ((List.range n).map Int.ofNat) →
        ∀ key id,
          (key, id) ∈ (TokenizerJSON.mk [] ⟨[], [([196, 160, 97], 1), ([98], 0)], [], []⟩).Model.Vocab →
          (newTokenizer (order.map (fun e => remapToken e.1))).tokenTable.get? id.toNat
            = some (remapToken key)) :=
  ⟨by decide, NewTokenizerJson_renumbering sortByID sortByID_contract
    (TokenizerJSON.mk [] ⟨[], [([196, 160, 97], 1), ([98], 0)], [], []⟩) (by decide)⟩

/-! ## Further properties of the byte-pair tokenizer -/

theorem mergePass_eq_mergeReference (p0 p1 : Str) :
    ∀ chars : List Str, mergePass p0 p1 chars = mergeReference p0 p1 chars
  | [] => by simp [mergePass, mergeReference]
  | [a] => by simp [mergePass, mergeReference]
  | a :: b :: rest => by
    rw [mergePass, mergeReference, mergePass_eq_mergeReference p0 p1 rest,
      mergePass_eq_mergeReference p0 p1 (b :: rest)]

/-- One round of the loop of `bpe` that selects a pair and does not end
with a single symbol goes on with `nextChars`. -/
theorem bpeLoop_step (ranks : GoMap Str Int) (fuel : Nat) (chars : List Str)
    (hsel : (selectMin ranks (getPairs chars)).1 ≠ [])
    (hlen : (nextChars ranks chars).length ≠ 1) :
    bpeLoop ranks (fuel + 1) chars (getPairs chars)
      = bpeLoop ranks fuel (nextChars ranks chars) (getPairs (nextChars ranks chars)) := by
  have hp : ¬ (getPairs chars).length = 0 := by
    intro h0
    rw [List.length_eq_zero.mp h0] at hsel
    exact hsel rfl
  rw [bpeLoop, if_neg hp]
  simp only [if_neg hsel]
  exact if_neg hlen

/-- The merge pass of `bpe` is the merge of the selected pair when neither
of its two symbols contains a comma. -/
theorem nextChars_of_no_comma (ranks : GoMap Str Int) (chars : List Str) (left right : Str)
    (hkey : (selectMin ranks (getPairs chars)).1 = left ++ [','] ++ right)
    (hl : ',' ∉ left) (hr : ',' ∉ right) :
    nextChars ranks chars = mergeReference left right chars := by
  unfold nextChars
  simp only
  rw [hkey, Split_key ',' right hr left hl]
  simp only [List.getD_cons_zero, List.getD_cons_succ]
  exact mergePass_eq_mergeReference left right chars

/-- C17 at the symbols `,` and `.` with the merge rule `,,.`: the pair
selected is the adjacent pair `,` `.`, whose merge is the one symbol `,.`,
but the merge pass of `bpe` hands on the two symbols unchanged and the loop
goes on with them.  With the rule `a,a` the symbols `a`, `a`, `a` do become
`aa`, `a`. -/
theorem bpe_merge_pass_comma :
    selectMin commaTokenizer.bpeRanks (getPairs [[','], ['.']])
      = ([','] ++ [','] ++ ['.'], 0) ∧
    mergeReference [','] ['.'] [[','], ['.']] = [[',', '.']] ∧
    nextChars commaTokenizer.bpeRanks [[','], ['.']] = [[','], ['.']] ∧
    (∀ fuel, bpeLoop commaTokenizer.bpeRanks (fuel + 1) [[','], ['.']] (getPairs [[','], ['.']])
      = bpeLoop commaTokenizer.bpeRanks fuel [[','], ['.']] (getPairs [[','], ['.']])) ∧
    nextChars [(['a', ',', 'a'], 0)] [['a'], ['a'], ['a']] = [['a', 'a'], ['a']] := by
  have h3 : nextChars commaTokenizer.bpeRanks [[','], ['.']] = [[','], ['.']] := by decide
  refine ⟨by decide, by decide, h3, fun fuel => ?_, by decide⟩
  have := bpeLoop_step commaTokenizer.bpeRanks fuel [[','], ['.']] (by decide)
    (by rw [h3]; decide)
  rw [h3] at this
  exact this

theorem getPairs_of_length_one (l : List Str) (h : l.length = 1) : getPairs l = [] := by
  match l, h with
  | [x], _ => rfl

/-- When the loop of `bpe` returns, an adjacent pair of the result whose key
has a rank has a rank not below the largest `int`. -/
theorem bpeLoop_fixpoint (ranks : GoMap Str Int) (r : List Str) :
    ∀ (fuel : Nat) (chars : List Str), bpeLoop ranks fuel chars (getPairs chars) = some r →
      ∀ key ∈ getPairs r, ∀ rk, ranks.get key = some rk → maxInt ≤ rk
  | 0, _, h => by simp [bpeLoop] at h
  | fuel + 1, chars, h => by
    rw [bpeLoop] at h
    by_cases hp : (getPairs chars).length = 0
    · rw [if_pos hp] at h
      simp only [Option.some.injEq] at h
      subst h
      rw [List.length_eq_zero.mp hp]
      intro key hkey; simp at hkey
    · rw [if_neg hp] at h
      simp only at h
      by_cases hm : (selectMin ranks (getPairs chars)).1 = []
      · rw [if_pos hm] at h
        simp only [Option.some.injEq] at h
        subst h
        rcases selectMin_spec ranks (getPairs chars) (getPairs_ne_nil chars) with
          ⟨_, _, h3⟩ | ⟨h1, _⟩
        · exact h3
        · exact absurd hm h1
      · rw [if_neg hm] at h
        split at h
        · rename_i h1
          simp only [Option.some.injEq] at h
          subst h
          rw [getPairs_of_length_one _ h1]
          intro key hkey; simp at hkey
        · exact bpeLoop_fixpoint ranks r fuel _ h

/-- The result of `bpe` on a chunk that is no special token: no adjacent
pair has a key with a rank below the largest `int`. -/
theorem bpe_fixpoint (t : Tokenizer2) (fuel : Nat) (chunk : Str) (syms : List Str)
    (hns : t.specialTokens.get chunk = none) (h : t.bpe fuel chunk = some syms) :
    ∀ key ∈ getPairs syms, ∀ rk, t.bpeRanks.get key = some rk → maxInt ≤ rk := by
  unfold Tokenizer2.bpe at h
  simp only [hns] at h
  by_cases hc : (explode chunk).length = 1
  · simp only [hc, if_true, Option.some.injEq] at h
    subst h
    rw [getPairs_of_length_one _ hc]
    intro key hkey; simp at hkey
  · simp only [hc, if_false] at h
    exact bpeLoop_fixpoint t.bpeRanks syms fuel _ h

/-- C18 at the chunk `ab` with the merge rule `a,b` of rank 2^63 - 1: the
chunk is no special token and the key `a,b` of its two symbols is in
`bpeRanks`, yet `bpe` returns the two symbols unmerged, whatever the fuel
that lets it enter its loop. -/
theorem bpe_fixpoint_max_rank :
    maxRankTokenizer.specialTokens.get ['a', 'b'] = none ∧
    maxRankTokenizer.bpeRanks.get (['a'] ++ [','] ++ ['b']) = some 9223372036854775807 ∧
    (∀ fuel, maxRankTokenizer.bpe (fuel + 1) ['a', 'b'] = some [['a'], ['b']]) := by
  refine ⟨by decide, by decide, fun fuel => ?_⟩
  exact bpe_mono maxRankTokenizer 1 (fuel + 1) _ _ (by omega) (by decide)

theorem mergePass_ne_nil_mem (p0 p1 : Str) :
    ∀ chars : List Str, (∀ s ∈ chars, s ≠ []) → ∀ s ∈ mergePass p0 p1 chars, s ≠ []
  | [], _, s, h => by simp [mergePass] at h
  | [a], hc, s, h => by
    simp only [mergePass] at h
    exact hc s h
  | a :: b :: rest, hc, s, h => by
    rw [mergePass] at h
    split at h
    · rename_i hab
      rcases List.mem_cons.mp h with h | h
      · rw [h, ← hab.1]
        have := hc a (by simp)
        simp [this]
      · exact mergePass_ne_nil_mem p0 p1 rest (fun x hx => hc x (by simp [hx])) s h
    · rcases List.mem_cons.mp h with h | h
      · rw [h]; exact hc a (by simp)
      · exact mergePass_ne_nil_mem p0 p1 (b :: rest)
          (fun x hx => hc x (List.mem_cons_of_mem _ hx)) s h

theorem bpeLoop_ne_nil_mem (ranks : GoMap Str Int) (r : List Str) :
    ∀ (fuel : Nat) (chars pairs : List Str), bpeLoop ranks fuel chars pairs = some r →
      (∀ s ∈ chars, s ≠ []) → ∀ s ∈ r, s ≠ []
  | 0, _, _, h, _ => by simp [bpeLoop] at h
  | fuel + 1, chars, pairs, h, hc => by
    rw [bpeLoop] at h
    split at h
    · simp only [Option.some.injEq] at h; rw [← h]; exact hc
    · simp only at h
      split at h
      · simp only [Option.some.injEq] at h; rw [← h]; exact hc
      · split at h
        · simp only [Option.some.injEq] at h
          rw [← h]; exact mergePass_ne_nil_mem _ _ chars hc
        · exact bpeLoop_ne_nil_mem ranks r fuel _ _ h (mergePass_ne_nil_mem _ _ chars hc)

theorem explode_ne_nil_mem (token : Str) : ∀ s ∈ explode token, s ≠ [] := by
  intro s hs
  simp only [explode, List.mem_map] at hs
  obtain ⟨c, _, rfl⟩ := hs
  simp

/-- C20: for a chunk that is no key of `specialTokens`, whenever `bpe`
returns, the returned symbols put together in order are the chunk and none
of them is empty; on the empty chunk `bpe` returns no symbol; and on a chunk
without a comma `bpe` does return. -/
theorem bpe_preserves_text (t : Tokenizer2) (chunk : Str)
    (hns : t.specialTokens.get chunk = none) :
    (∀ fuel syms, t.bpe fuel chunk = some syms →
      syms.flatten = chunk ∧ ∀ s ∈ syms, s ≠ []) ∧
    (chunk = [] → ∀ fuel, 1 ≤ fuel → t.bpe fuel chunk = some []) ∧
    (',' ∉ chunk → ∃ syms, t.bpe (chunk.length + 1) chunk = some syms) := by
  refine ⟨fun fuel syms h => ?_, fun he fuel hf => ?_, bpe_terminates_of_no_comma t chunk⟩
  · unfold Tokenizer2.bpe at h
    simp only [hns] at h
    by_cases hc : (explode chunk).length = 1
    · simp only [hc, if_true, Option.some.injEq] at h
      rw [← h]
      exact ⟨explode_flatten chunk, explode_ne_nil_mem chunk⟩
    · simp only [hc, if_false] at h
      exact ⟨by rw [bpeLoop_flatten _ syms fuel _ _ h]; exact explode_flatten chunk,
        bpeLoop_ne_nil_mem _ syms fuel _ _ h (explode_ne_nil_mem chunk)⟩
  · subst he
    obtain ⟨n, rfl⟩ : ∃ n, fuel = n + 1 := ⟨fuel - 1, by omega⟩
    unfold Tokenizer2.bpe
    simp only [hns]
    rfl

theorem bpe_preserves_text_witness :
    tieTokenizer.specialTokens.get ['a', 'b', 'c'] = none ∧
    (∀ fuel syms, tieTokenizer.bpe fuel ['a', 'b', 'c'] = some syms →
      syms.flatten = ['a', 'b', 'c'] ∧ ∀ s ∈ syms, s ≠ []) ∧
    ((['a', 'b', 'c'] : Str) = [] →
      ∀ fuel, 1 ≤ fuel → tieTokenizer.bpe fuel ['a', 'b', 'c'] = some []) ∧
    (',' ∉ (['a', 'b', 'c'] : Str) →
      ∃ syms, tieTokenizer.bpe ((['a', 'b', 'c'] : Str).length + 1) ['a', 'b', 'c']
        = some syms) :=
  ⟨by decide, bpe_preserves_text tieTokenizer ['a', 'b', 'c'] (by decide)⟩

end Tok
